import Mathlib

/-!
Verification development for the plain-cache crate: a sharded S3-FIFO
key-value cache.  The embedding below translates the data structures and
operations of src/src/cache/ring_buffer.rs, fixed_size_hash_table.rs,
entry.rs, shard.rs and cache.rs into Lean.  Keys and values are
represented by Nat; the hash builder is an arbitrary function Nat to Nat
carried in the structures that own it.  Rust panics (the expect calls of
shard.rs and out-of-fuel loops) are represented by a none result of the
operation; a some result is a normal return.
-/

namespace PlainCache

/-- Decidability of a bounded forall over an option, used so that the
invariants below evaluate on concrete states. -/
instance {α : Type} (o : Option α) (p : α → Prop) [DecidablePred p] :
    Decidable (∀ a ∈ o, p a) :=
  match o with
  | none => isTrue (by intro a h; cases h)
  | some x => decidable_of_iff (p x) (by simp)

/-! ## List helper lemmas (for the backing Vec of the ring buffer) -/

theorem getD_set_self {α : Type} (l : List (Option α)) (i : Nat) (x : Option α)
    (h : i < l.length) : (l.set i x).getD i none = x := by
  induction l generalizing i with
  | nil => simp at h
  | cons a t ih =>
    cases i with
    | zero => simp [List.set, List.getD]
    | succ j =>
      simp only [List.set, List.getD_cons_succ]
      exact ih j (by simpa using h)

theorem getD_set_ne {α : Type} (l : List (Option α)) (i j : Nat) (x : Option α)
    (h : i ≠ j) : (l.set i x).getD j none = l.getD j none := by
  induction l generalizing i j with
  | nil => simp [List.set]
  | cons a t ih =>
    cases i with
    | zero =>
      cases j with
      | zero => exact absurd rfl h
      | succ j2 => simp [List.set, List.getD_cons_succ]
    | succ i2 =>
      cases j with
      | zero => simp [List.set, List.getD_cons_zero]
      | succ j2 =>
        simp only [List.set, List.getD_cons_succ]
        exact ih i2 j2 (fun hc => h (by rw [hc]))

theorem getD_of_length_le {α : Type} (l : List (Option α)) (i : Nat)
    (h : l.length ≤ i) : l.getD i none = none := by
  induction l generalizing i with
  | nil => simp [List.getD]
  | cons a t ih =>
    cases i with
    | zero => simp at h
    | succ j =>
      simp only [List.getD_cons_succ]
      exact ih j (by simpa using h)

theorem getD_replicate {α : Type} (n i : Nat) :
    (List.replicate n (none : Option α)).getD i none = none := by
  induction n generalizing i with
  | zero => simp [List.getD]
  | succ m ih =>
    cases i with
    | zero => simp [List.replicate]
    | succ j => simp [List.replicate, List.getD_cons_succ, ih j]

theorem set_of_getD_none {α : Type} (l : List (Option α)) (i : Nat)
    (h : l.getD i none = none) : l.set i none = l := by
  induction l generalizing i with
  | nil => simp [List.set]
  | cons a t ih =>
    cases i with
    | zero =>
      simp only [List.getD_cons_zero] at h
      simp [List.set, h]
    | succ j =>
      simp only [List.getD_cons_succ] at h
      simp [List.set, ih j h]

/-! ## Entry (src/src/cache/entry.rs) -/

/-- Tagged pointer from a key into one of the two queues. -/
inductive EntryPointer where
  | mainQueue (i : Nat)
  | smallQueue (i : Nat)
deriving DecidableEq

def EntryPointer.isSmall : EntryPointer → Bool
  | .smallQueue _ => true
  | .mainQueue _ => false

/-- Cache entry: key, value and the atomic u8 access counter.  In this
sequential embedding the counter is a Nat taken modulo 256 where the u8
could wrap. -/
structure Entry where
  key : Nat
  value : Nat
  numAccessed : Nat
deriving DecidableEq

def Entry.new (key value : Nat) : Entry := ⟨key, value, 0⟩

def Entry.getNumAccessed (e : Entry) : Nat := e.numAccessed

def Entry.setNumAccessed (e : Entry) (val : Nat) : Entry := { e with numAccessed := val }

/-- Sequential rendering of the compare-and-swap loop of
Entry::increment_num_accessed: the first CAS with the observed value either
succeeds, or fails and retries with the freshly re-read current value, which
then succeeds.  Either way the counter becomes current plus one (as a u8). -/
def Entry.incrementNumAccessed (e : Entry) (currentVal : Nat) : Entry :=
  if e.numAccessed = currentVal then { e with numAccessed := (currentVal + 1) % 256 }
  else { e with numAccessed := (e.numAccessed + 1) % 256 }

/-! ## RingBuffer (src/src/cache/ring_buffer.rs) -/

/-- Fixed-capacity circular buffer.  The backing Vec is a list of optional
slots whose length is the capacity. -/
structure RingBuffer (α : Type) where
  head : Nat
  len : Nat
  buffer : List (Option α)

namespace RingBuffer

def withCapacity (α : Type) (capacity : Nat) : RingBuffer α :=
  ⟨0, 0, List.replicate capacity none⟩

def cap {α : Type} (rb : RingBuffer α) : Nat := rb.buffer.length

def isEmpty {α : Type} (rb : RingBuffer α) : Bool := rb.len == 0

def isFull {α : Type} (rb : RingBuffer α) : Bool := rb.len == rb.cap

def get {α : Type} (rb : RingBuffer α) (index : Nat) : Option α :=
  rb.buffer.getD index none

def wrapAdd {α : Type} (rb : RingBuffer α) (idx addend : Nat) : Nat :=
  let capacity := rb.cap
  let j := idx + addend
  if j ≥ capacity then j - capacity else j

/-- push_back: writes at (head + len) mod capacity and returns the physical
index, or none when full.  The Rust slot write would panic out of bounds;
under the ring-buffer invariant the index is always in range. -/
def pushBack {α : Type} (rb : RingBuffer α) (value : α) : Option (Nat × RingBuffer α) :=
  if rb.isFull then none
  else
    let physicalIdx := rb.wrapAdd rb.head rb.len
    some (physicalIdx,
      { rb with buffer := rb.buffer.set physicalIdx (some value), len := rb.len + 1 })

/-- Body of the pop_front while loop.  Each iteration takes the slot at head,
advances head by one modulo the capacity and decrements len; it stops when an
occupied slot was taken or len reached zero.  The loop runs at most len
iterations, so the fuel is initialised to len by popFront. -/
def popFrontLoop {α : Type} : Nat → RingBuffer α → Option α × RingBuffer α
  | 0, rb => (none, rb)
  | fuel + 1, rb =>
    if rb.len = 0 then (none, rb)
    else
      let t := rb.buffer.getD rb.head none
      let rb2 : RingBuffer α :=
        { head := rb.wrapAdd rb.head 1, len := rb.len - 1,
          buffer := rb.buffer.set rb.head none }
      match t with
      | some x => (some x, rb2)
      | none => popFrontLoop fuel rb2

def popFront {α : Type} (rb : RingBuffer α) : Option α × RingBuffer α :=
  popFrontLoop rb.len rb

/-- remove: clears slot index and returns its previous content, without
touching head or len. -/
def remove {α : Type} (rb : RingBuffer α) (index : Nat) : Option α × RingBuffer α :=
  (rb.buffer.getD index none, { rb with buffer := rb.buffer.set index none })

def setSlot {α : Type} (rb : RingBuffer α) (index : Nat) (value : α) : RingBuffer α :=
  { rb with buffer := rb.buffer.set index (some value) }

end RingBuffer

/-! ## FixedSizeHashTable (src/src/cache/fixed_size_hash_table.rs) -/

/-- Fixed-size lossy hash set of keys: one key per bucket, collisions
overwrite.  The hash builder is carried as a function. -/
structure FixedSizeHashTable where
  hash : Nat → Nat
  buckets : List (Option Nat)

namespace FixedSizeHashTable

def withCapacityAndHasher (capacity : Nat) (hash : Nat → Nat) : FixedSizeHashTable :=
  ⟨hash, List.replicate capacity none⟩

def getBucketIndex (t : FixedSizeHashTable) (h : Nat) : Nat :=
  h % max (t.buckets.length - 1) 1

def insert (t : FixedSizeHashTable) (value : Nat) : FixedSizeHashTable :=
  if t.buckets.length = 0 then t
  else { t with buckets := t.buckets.set (t.getBucketIndex (t.hash value)) (some value) }

def contains (t : FixedSizeHashTable) (value : Nat) : Bool :=
  if t.buckets.length = 0 then false
  else
    match t.buckets.getD (t.getBucketIndex (t.hash value)) none with
    | some item => item == value
    | none => false

end FixedSizeHashTable

/-! ## The entry-pointer index (std HashMap in shard.rs, as an assoc list) -/

def mapGet : List (Nat × EntryPointer) → Nat → Option EntryPointer
  | [], _ => none
  | (k, v) :: rest, key => if k = key then some v else mapGet rest key

def mapRemove : List (Nat × EntryPointer) → Nat → List (Nat × EntryPointer)
  | [], _ => []
  | p :: rest, key => if p.1 = key then mapRemove rest key else p :: mapRemove rest key

/-- HashMap::insert replaces any previous mapping of the key; observably via
mapGet this is cons after removal. -/
def mapInsert (m : List (Nat × EntryPointer)) (key : Nat) (v : EntryPointer) :
    List (Nat × EntryPointer) :=
  (key, v) :: mapRemove m key

/-! ## Shard (src/src/cache/shard.rs) -/

structure Shard where
  entryPointers : List (Nat × EntryPointer)
  smallQueue : RingBuffer Entry
  mainQueue : RingBuffer Entry
  ghostQueue : FixedSizeHashTable

namespace Shard

/-- Shard::with_capacity_and_hasher.  Note: in Rust, capacity 0 would make
the main-queue size computation underflow; the facade never constructs a
shard with capacity 0 (it creates no shards instead), so the truncated Nat
subtraction here is only exercised at capacity at least 1. -/
def withCapacityAndHasher (capacity : Nat) (hash : Nat → Nat) : Shard :=
  let smallFifoQueueSize := max (capacity / 10) 1
  let mainFifoQueueSize := max (capacity - smallFifoQueueSize) 1
  { entryPointers := []
    smallQueue := RingBuffer.withCapacity Entry smallFifoQueueSize
    mainQueue := RingBuffer.withCapacity Entry mainFifoQueueSize
    ghostQueue := FixedSizeHashTable.withCapacityAndHasher mainFifoQueueSize hash }

/-- Sum of the access counters over the occupied slots of a buffer. -/
def countSumL : List (Option Entry) → Nat
  | [] => 0
  | none :: t => countSumL t
  | some e :: t => e.numAccessed + countSumL t

/-- Number of occupied slots of a buffer. -/
def occCountL : List (Option Entry) → Nat
  | [] => 0
  | none :: t => occCountL t
  | some _ :: t => 1 + occCountL t

/-- Fuel bound for the evict_main_queue loop: every reinserting iteration
strictly decreases countSumL plus occCountL of the main queue, so this
quantity plus one bounds the number of iterations (the loop in Rust is
unbounded; the totality theorems show this fuel is never exhausted). -/
def mainFuel (s : Shard) : Nat :=
  countSumL s.mainQueue.buffer + occCountL s.mainQueue.buffer + 1

/-- Shard::reinsert_into_main_queue.  A none result models a fired expect:
either the popped key is missing from the index, or push_back failed. -/
def reinsertIntoMainQueue (s : Shard) (entry : Entry) (numAccessed : Nat) : Option Shard :=
  match mapGet s.entryPointers entry.key with
  | none => none
  | some _ =>
    match s.mainQueue.pushBack (entry.setNumAccessed numAccessed) with
    | none => none
    | some (index, mq) =>
      some { s with mainQueue := mq,
                    entryPointers := mapInsert s.entryPointers entry.key (.mainQueue index) }

/-- Loop body of Shard::evict_main_queue, with fuel; the returned Nat counts
the loop iterations executed. -/
def evictMainLoop : Nat → Shard → Option (Shard × Nat)
  | 0, _ => none
  | fuel + 1, s =>
    match s.mainQueue.popFront with
    | (some entry, mq) =>
      if 0 < entry.getNumAccessed then
        let decrementedByOne := max 0 (entry.getNumAccessed - 1)
        match reinsertIntoMainQueue { s with mainQueue := mq } entry decrementedByOne with
        | none => none
        | some s2 => (evictMainLoop fuel s2).map (fun p => (p.1, p.2 + 1))
      else
        some ({ s with mainQueue := mq,
                       entryPointers := mapRemove s.entryPointers entry.key }, 1)
    | (none, mq) => some ({ s with mainQueue := mq }, 1)

def evictMainQueue (s : Shard) : Option Shard :=
  (evictMainLoop (mainFuel s) s).map (fun p => p.1)

/-- Shard::evict_small_queue. -/
def evictSmallQueue (s : Shard) : Option Shard :=
  match s.smallQueue.popFront with
  | (none, sq) => some { s with smallQueue := sq }
  | (some entry, sq) =>
    let s1 := { s with smallQueue := sq }
    if 1 < entry.getNumAccessed then
      match (if s1.mainQueue.isFull then s1.evictMainQueue else some s1) with
      | none => none
      | some s2 =>
        match mapGet s2.entryPointers entry.key with
        | none => none
        | some _ =>
          match s2.mainQueue.pushBack (entry.setNumAccessed 0) with
          | none => none
          | some (index, mq) =>
            some { s2 with mainQueue := mq,
                           entryPointers := mapInsert s2.entryPointers entry.key (.mainQueue index) }
    else
      some { s1 with entryPointers := mapRemove s1.entryPointers entry.key,
                     ghostQueue := s1.ghostQueue.insert entry.key }

/-- Shard::insert_into_main_queue. -/
def insertIntoMainQueue (s : Shard) (entry : Entry) : Option Shard :=
  match (if s.mainQueue.isFull then s.evictMainQueue else some s) with
  | none => none
  | some s1 =>
    match s1.mainQueue.pushBack entry with
    | none => none
    | some (index, mq) =>
      some { s1 with mainQueue := mq,
                     entryPointers := mapInsert s1.entryPointers entry.key (.mainQueue index) }

/-- Shard::insert_into_small_queue. -/
def insertIntoSmallQueue (s : Shard) (entry : Entry) : Option Shard :=
  match (if s.smallQueue.isFull then s.evictSmallQueue else some s) with
  | none => none
  | some s1 =>
    match s1.smallQueue.pushBack entry with
    | none => none
    | some (index, sq) =>
      some { s1 with smallQueue := sq,
                     entryPointers := mapInsert s1.entryPointers entry.key (.smallQueue index) }

/-- Shard::insert: remove any prior mapping of the key (capturing the prior
value), then admit a fresh entry to the main queue when the ghost set
contains the key and to the small queue otherwise. -/
def insert (s : Shard) (key value : Nat) : Option (Option Nat × Shard) :=
  let step1 : Option Nat × Shard :=
    match mapGet s.entryPointers key with
    | some (.mainQueue index) =>
      let r := s.mainQueue.remove index
      ((r.1).map Entry.value, { s with mainQueue := r.2 })
    | some (.smallQueue index) =>
      let r := s.smallQueue.remove index
      ((r.1).map Entry.value, { s with smallQueue := r.2 })
    | none => (none, s)
  let previousItem := step1.1
  let s1 := step1.2
  let entry := Entry.new key value
  match (if s1.ghostQueue.contains key then s1.insertIntoMainQueue entry
         else s1.insertIntoSmallQueue entry) with
  | none => none
  | some s2 => some (previousItem, s2)

/-- Shard::update_access_count: saturating bump of the access counter at 3. -/
def updateAccessCount (entry : Entry) : Entry :=
  if entry.getNumAccessed ≥ 3 then entry
  else entry.incrementNumAccessed entry.getNumAccessed

/-- Shard::get.  A none result models the fired expect when an index pointer
references an empty slot; a some result carries the returned value and the
shard with the updated access counter. -/
def get (s : Shard) (key : Nat) : Option (Option Nat × Shard) :=
  match mapGet s.entryPointers key with
  | none => some (none, s)
  | some (.mainQueue index) =>
    match s.mainQueue.get index with
    | none => none
    | some entry =>
      some (some entry.value,
        { s with mainQueue := s.mainQueue.setSlot index (updateAccessCount entry) })
  | some (.smallQueue index) =>
    match s.smallQueue.get index with
    | none => none
    | some entry =>
      some (some entry.value,
        { s with smallQueue := s.smallQueue.setSlot index (updateAccessCount entry) })

end Shard

/-! ## Operation sequences on one shard -/

inductive CacheOp where
  | ins (key value : Nat)
  | lookup (key : Nat)

def Shard.applyOp (s : Shard) : CacheOp → Option Shard
  | .ins k v => (s.insert k v).map (fun p => p.2)
  | .lookup k => (s.get k).map (fun p => p.2)

def Shard.runOps (s : Shard) : List CacheOp → Option Shard
  | [] => some s
  | op :: ops =>
    match s.applyOp op with
    | none => none
    | some s2 => Shard.runOps s2 ops

/-! ## The ring-buffer window invariant -/

/-- Circular distance from head to position j in a buffer of the given
capacity. -/
def rdist (capacity head j : Nat) : Nat := (j + capacity - head) % capacity

/-- Every occupied slot lies in the window of len positions starting at
head; head is in range and len is at most the capacity. -/
def RBInv {α : Type} (rb : RingBuffer α) : Prop :=
  rb.head < rb.cap ∧ rb.len ≤ rb.cap ∧
  ∀ j < rb.cap, (rb.buffer.getD j none).isSome = true → rdist rb.cap rb.head j < rb.len

theorem rdist_eq {capacity head j : Nat} (h1 : head < capacity) (h2 : j < capacity) :
    rdist capacity head j = if head ≤ j then j - head else j + capacity - head := by
  unfold rdist
  by_cases hle : head ≤ j
  · have : j + capacity - head = (j - head) + capacity := by omega
    rw [this, if_pos hle, Nat.add_mod_right, Nat.mod_eq_of_lt (by omega)]
  · rw [if_neg hle, Nat.mod_eq_of_lt (by omega)]

theorem rdist_self {capacity head : Nat} (h1 : head < capacity) :
    rdist capacity head head = 0 := by
  rw [rdist_eq h1 h1]; simp

theorem rdist_eq_zero_iff {capacity head j : Nat} (h1 : head < capacity) (h2 : j < capacity) :
    rdist capacity head j = 0 ↔ j = head := by
  rw [rdist_eq h1 h2]
  by_cases hle : head ≤ j
  · rw [if_pos hle]; omega
  · rw [if_neg hle]; omega

theorem rdist_inj {capacity head j1 j2 : Nat} (h1 : head < capacity)
    (hj1 : j1 < capacity) (hj2 : j2 < capacity)
    (h : rdist capacity head j1 = rdist capacity head j2) : j1 = j2 := by
  rw [rdist_eq h1 hj1, rdist_eq h1 hj2] at h
  by_cases ha : head ≤ j1 <;> by_cases hb : head ≤ j2
  · rw [if_pos ha, if_pos hb] at h; omega
  · rw [if_pos ha, if_neg hb] at h; omega
  · rw [if_neg ha, if_pos hb] at h; omega
  · rw [if_neg ha, if_neg hb] at h; omega

namespace RingBuffer

theorem cap_withCapacity {α : Type} (n : Nat) : (withCapacity α n).cap = n := by
  simp [withCapacity, cap]

/-- The advanced head after one pop step. -/
theorem wrapAdd_one {α : Type} (rb : RingBuffer α) (h : rb.head < rb.cap) :
    rb.wrapAdd rb.head 1 = (if rb.head + 1 = rb.cap then 0 else rb.head + 1) ∧
      rb.wrapAdd rb.head 1 < rb.cap := by
  have hdef : rb.wrapAdd rb.head 1 =
      if rb.head + 1 ≥ rb.cap then rb.head + 1 - rb.cap else rb.head + 1 := rfl
  rw [hdef]
  by_cases hc : rb.head + 1 ≥ rb.cap
  · have he : rb.head + 1 = rb.cap := by omega
    rw [if_pos hc, if_pos he]
    omega
  · have he : ¬ rb.head + 1 = rb.cap := by omega
    rw [if_neg hc, if_neg he]
    omega

theorem rdist_advance {capacity head j : Nat} (h1 : head < capacity) (h2 : j < capacity)
    (hne : j ≠ head) :
    rdist capacity (if head + 1 = capacity then 0 else head + 1) j + 1 =
      rdist capacity head j := by
  by_cases he : head + 1 = capacity
  · rw [if_pos he, rdist_eq (by omega) h2, rdist_eq h1 h2]
    by_cases hle : head ≤ j
    · rw [if_pos hle, if_pos (Nat.zero_le j)]; omega
    · rw [if_neg hle, if_pos (Nat.zero_le j)]; omega
  · rw [if_neg he, rdist_eq (by omega) h2, rdist_eq h1 h2]
    by_cases hle : head ≤ j
    · have hle2 : head + 1 ≤ j := by omega
      rw [if_pos hle2, if_pos hle]; omega
    · have hle2 : ¬ head + 1 ≤ j := by omega
      rw [if_neg hle2, if_neg hle]; omega

/-- The push position: in range and at circular distance len from head. -/
theorem wrapAdd_push {α : Type} (rb : RingBuffer α) (h1 : rb.head < rb.cap)
    (h2 : rb.len < rb.cap) :
    rb.wrapAdd rb.head rb.len < rb.cap ∧
      rdist rb.cap rb.head (rb.wrapAdd rb.head rb.len) = rb.len := by
  have hdef : rb.wrapAdd rb.head rb.len =
      if rb.head + rb.len ≥ rb.cap then rb.head + rb.len - rb.cap
      else rb.head + rb.len := rfl
  rw [hdef]
  by_cases hc : rb.head + rb.len ≥ rb.cap
  · simp only [if_pos hc]
    constructor
    · omega
    · rw [rdist_eq h1 (by omega)]
      have : ¬ rb.head ≤ rb.head + rb.len - rb.cap := by omega
      rw [if_neg this]; omega
  · simp only [if_neg hc]
    constructor
    · omega
    · rw [rdist_eq h1 (by omega)]
      have : rb.head ≤ rb.head + rb.len := by omega
      rw [if_pos this]; omega

/-- Characterization of pop_front: with the invariant, it either reports an
empty buffer (then no slot is occupied and len has dropped to 0, the backing
buffer unchanged), or returns the entry of some occupied slot, clearing
exactly that slot. -/
theorem popFrontLoop_spec {α : Type} :
    ∀ (fuel : Nat) (rb : RingBuffer α), RBInv rb → fuel = rb.len →
    (match popFrontLoop fuel rb with
     | (none, rb2) => rb2.buffer = rb.buffer ∧ rb2.len = 0 ∧ RBInv rb2 ∧
         rb2.cap = rb.cap ∧ (∀ j, rb.buffer.getD j none = none)
     | (some e, rb2) => ∃ j, j < rb.cap ∧ rb.buffer.getD j none = some e ∧
         rb2.buffer = rb.buffer.set j none ∧ rb2.len < rb.len ∧ RBInv rb2 ∧
         rb2.cap = rb.cap) := by
  intro fuel
  induction fuel with
  | zero =>
    intro rb hinv hfuel
    obtain ⟨hhead, hlen, hwin⟩ := hinv
    have hall : ∀ j, rb.buffer.getD j none = none := by
      intro j
      by_cases hj : j < rb.cap
      · by_cases hs : (rb.buffer.getD j none).isSome = true
        · exact absurd (hwin j hj hs) (by omega)
        · exact Option.not_isSome_iff_eq_none.mp (by simpa using hs)
      · exact getD_of_length_le _ _ (by simpa [cap] using hj)
    exact ⟨rfl, hfuel.symm, ⟨hhead, hlen, hwin⟩, rfl, hall⟩
  | succ f ih =>
    intro rb hinv hfuel
    obtain ⟨hhead, hlen, hwin⟩ := hinv
    have hlen0 : rb.len ≠ 0 := by omega
    have hadv := wrapAdd_one rb hhead
    have hred : popFrontLoop (f + 1) rb =
        (match rb.buffer.getD rb.head none with
         | some x => (some x,
             ({ head := rb.wrapAdd rb.head 1, len := rb.len - 1,
                buffer := rb.buffer.set rb.head none } : RingBuffer α))
         | none => popFrontLoop f
             { head := rb.wrapAdd rb.head 1, len := rb.len - 1,
               buffer := rb.buffer.set rb.head none }) := by
      simp only [popFrontLoop, if_neg hlen0]
    have hcap2 :
        ({ head := rb.wrapAdd rb.head 1, len := rb.len - 1,
           buffer := rb.buffer.set rb.head none } : RingBuffer α).cap = rb.cap := by
      simp [cap]
    have hinv2 : RBInv
        ({ head := rb.wrapAdd rb.head 1, len := rb.len - 1,
           buffer := rb.buffer.set rb.head none } : RingBuffer α) := by
      refine ⟨?_, ?_, ?_⟩
      · rw [hcap2]; exact hadv.2
      · rw [hcap2]; show rb.len - 1 ≤ rb.cap; omega
      · intro j hj hs
        rw [hcap2] at hj
        simp only at hs
        have hne : j ≠ rb.head := by
          intro hcontra
          rw [hcontra, getD_set_self _ _ _ hhead] at hs
          simp at hs
        rw [getD_set_ne _ _ _ _ (fun hc => hne hc.symm)] at hs
        have hd := hwin j hj hs
        have hd0 : rdist rb.cap rb.head j ≠ 0 := by
          intro hc
          exact hne ((rdist_eq_zero_iff hhead hj).mp hc)
        have hshift := rdist_advance hhead hj hne
        rw [hcap2]
        show rdist rb.cap (rb.wrapAdd rb.head 1) j < rb.len - 1
        rw [hadv.1]
        omega
    rw [hred]
    cases ht : rb.buffer.getD rb.head none with
    | some e =>
      exact ⟨rb.head, hhead, ht, rfl, (show rb.len - 1 < rb.len by omega), hinv2, hcap2⟩
    | none =>
      have hbuf2 : rb.buffer.set rb.head none = rb.buffer := set_of_getD_none _ _ ht
      rw [hbuf2] at hinv2 hcap2 ⊢
      have hfuel2 : f =
          ({ head := rb.wrapAdd rb.head 1, len := rb.len - 1,
             buffer := rb.buffer } : RingBuffer α).len := by
        show f = rb.len - 1; omega
      have hres := ih _ hinv2 hfuel2
      obtain ⟨r, rb3, hresec⟩ : ∃ r rb3, popFrontLoop f
          ({ head := rb.wrapAdd rb.head 1, len := rb.len - 1,
             buffer := rb.buffer } : RingBuffer α) = (r, rb3) := ⟨_, _, rfl⟩
      rw [hresec] at hres ⊢
      cases r with
      | none =>
        obtain ⟨hb, hl, hi, hc, hall⟩ := hres
        exact ⟨hb, hl, hi, by rw [hc, hcap2], hall⟩
      | some e =>
        obtain ⟨j, hj, hget, hb, hl, hi, hc⟩ := hres
        rw [hcap2] at hj
        refine ⟨j, hj, hget, hb, ?_, hi, by rw [hc, hcap2]⟩
        have hl2 : rb3.len < rb.len - 1 := hl
        omega

theorem popFront_spec {α : Type} (rb : RingBuffer α) (hinv : RBInv rb) :
    (match popFront rb with
     | (none, rb2) => rb2.buffer = rb.buffer ∧ rb2.len = 0 ∧ RBInv rb2 ∧
         rb2.cap = rb.cap ∧ (∀ j, rb.buffer.getD j none = none)
     | (some e, rb2) => ∃ j, j < rb.cap ∧ rb.buffer.getD j none = some e ∧
         rb2.buffer = rb.buffer.set j none ∧ rb2.len < rb.len ∧ RBInv rb2 ∧
         rb2.cap = rb.cap) :=
  popFrontLoop_spec rb.len rb hinv rfl

/-- Characterization of push_back on a non-full buffer: it writes the value
into a previously empty slot at circular distance len from head. -/
theorem pushBack_spec {α : Type} (rb : RingBuffer α) (v : α) (hinv : RBInv rb)
    (hlen : rb.len < rb.cap) :
    ∃ p rb2, rb.pushBack v = some (p, rb2) ∧ p < rb.cap ∧
      rb.buffer.getD p none = none ∧ rb2.buffer = rb.buffer.set p (some v) ∧
      rb2.head = rb.head ∧ rb2.len = rb.len + 1 ∧ rb2.cap = rb.cap ∧ RBInv rb2 := by
  obtain ⟨hhead, hle, hwin⟩ := hinv
  have hfull : rb.isFull = false := by
    simp [isFull]; omega
  obtain ⟨hp, hd⟩ := wrapAdd_push rb hhead hlen
  set p := rb.wrapAdd rb.head rb.len with hpdef
  have hfresh : rb.buffer.getD p none = none := by
    by_cases hs : (rb.buffer.getD p none).isSome = true
    · have := hwin p hp hs
      omega
    · exact Option.not_isSome_iff_eq_none.mp (by simpa using hs)
  have hcap2 :
      ({ rb with buffer := rb.buffer.set p (some v), len := rb.len + 1 } : RingBuffer α).cap
        = rb.cap := by
    simp [cap]
  refine ⟨p, { rb with buffer := rb.buffer.set p (some v), len := rb.len + 1 }, ?_,
    hp, hfresh, rfl, rfl, rfl, hcap2, ?_⟩
  · simp only [pushBack, hfull, Bool.false_eq_true, if_false]
  · refine ⟨?_, ?_, ?_⟩
    · rw [hcap2]; exact hhead
    · rw [hcap2]; show rb.len + 1 ≤ rb.cap; omega
    · intro j hj hs
      rw [hcap2] at hj
      rw [hcap2]
      show rdist rb.cap rb.head j < rb.len + 1
      simp only at hs
      by_cases hjp : j = p
      · subst hjp
        rw [hd]
        omega
      · rw [getD_set_ne _ _ _ _ (fun hc => hjp hc.symm)] at hs
        have := hwin j hj hs
        omega

theorem remove_spec {α : Type} (rb : RingBuffer α) (i : Nat) (hinv : RBInv rb) :
    (rb.remove i).1 = rb.buffer.getD i none ∧
      (rb.remove i).2.buffer = rb.buffer.set i none ∧
      (rb.remove i).2.head = rb.head ∧ (rb.remove i).2.len = rb.len ∧
      (rb.remove i).2.cap = rb.cap ∧ RBInv (rb.remove i).2 := by
  obtain ⟨hhead, hle, hwin⟩ := hinv
  have hcapr : (rb.remove i).2.cap = rb.cap := by simp [remove, cap]
  refine ⟨rfl, rfl, rfl, rfl, hcapr, ?_⟩
  refine ⟨by rw [hcapr]; exact hhead, by rw [hcapr]; exact hle, ?_⟩
  intro j hj hs
  rw [hcapr] at hj
  rw [show (rb.remove i).2.buffer = rb.buffer.set i none from rfl] at hs
  rw [hcapr, show (rb.remove i).2.head = rb.head from rfl,
    show (rb.remove i).2.len = rb.len from rfl]
  by_cases hji : j = i
  · subst hji
    rw [getD_set_self _ _ _ hj] at hs
    simp at hs
  · rw [getD_set_ne _ _ _ _ (fun hc => hji hc.symm)] at hs
    exact hwin j hj hs

end RingBuffer

/-! ## Lemmas about the entry-pointer index -/

theorem mapGet_mapRemove (m : List (Nat × EntryPointer)) (k k2 : Nat) :
    mapGet (mapRemove m k) k2 = if k = k2 then none else mapGet m k2 := by
  induction m with
  | nil => simp [mapRemove, mapGet]
  | cons p rest ih =>
    obtain ⟨k3, v⟩ := p
    by_cases h3 : k3 = k
    · subst h3
      rw [show mapRemove ((k3, v) :: rest) k3 = mapRemove rest k3 from by
        simp [mapRemove]]
      rw [ih]
      by_cases he : k3 = k2
      · rw [if_pos he, if_pos he]
      · rw [if_neg he, if_neg he]
        simp [mapGet, he]
    · rw [show mapRemove ((k3, v) :: rest) k = (k3, v) :: mapRemove rest k from by
        simp [mapRemove, h3]]
      by_cases he : k3 = k2
      · have hkk : ¬ k = k2 := fun hc => h3 (he.trans hc.symm)
        simp only [mapGet, if_pos he, if_neg hkk]
      · simp only [mapGet, if_neg he]
        rw [ih]

theorem mapGet_mapInsert (m : List (Nat × EntryPointer)) (k k2 : Nat) (v : EntryPointer) :
    mapGet (mapInsert m k v) k2 = if k = k2 then some v else mapGet m k2 := by
  simp only [mapInsert, mapGet]
  by_cases he : k = k2
  · simp [he]
  · rw [if_neg he, if_neg he, mapGet_mapRemove, if_neg he]

theorem mapGet_mem {m : List (Nat × EntryPointer)} {k : Nat} {v : EntryPointer}
    (h : mapGet m k = some v) : (k, v) ∈ m := by
  induction m with
  | nil => simp [mapGet] at h
  | cons p rest ih =>
    obtain ⟨k3, v3⟩ := p
    simp only [mapGet] at h
    by_cases he : k3 = k
    · subst he
      rw [if_pos rfl] at h
      cases h
      exact List.mem_cons_self _ _
    · rw [if_neg he] at h
      exact List.mem_cons_of_mem _ (ih h)

theorem mem_mapRemove {m : List (Nat × EntryPointer)} {k : Nat} {p : Nat × EntryPointer}
    (h : p ∈ mapRemove m k) : p ∈ m ∧ p.1 ≠ k := by
  induction m with
  | nil => simp [mapRemove] at h
  | cons q rest ih =>
    by_cases hq : q.1 = k
    · rw [show mapRemove (q :: rest) k = mapRemove rest k from by simp [mapRemove, hq]] at h
      obtain ⟨h1, h2⟩ := ih h
      exact ⟨List.mem_cons_of_mem _ h1, h2⟩
    · rw [show mapRemove (q :: rest) k = q :: mapRemove rest k from by
        simp [mapRemove, hq]] at h
      rcases List.mem_cons.mp h with h1 | h2
      · subst h1; exact ⟨List.mem_cons_self _ _, hq⟩
      · obtain ⟨h1, h3⟩ := ih h2
        exact ⟨List.mem_cons_of_mem _ h1, h3⟩

theorem mem_mapInsert {m : List (Nat × EntryPointer)} {k : Nat} {v : EntryPointer}
    {p : Nat × EntryPointer} (h : p ∈ mapInsert m k v) :
    p = (k, v) ∨ (p ∈ m ∧ p.1 ≠ k) := by
  unfold mapInsert at h
  rcases List.mem_cons.mp h with h1 | h2
  · exact Or.inl h1
  · exact Or.inr (mem_mapRemove h2)

/-! ## Lemmas about the ghost set -/

namespace FixedSizeHashTable

theorem bucketIndex_lt (t : FixedSizeHashTable) (h : Nat) (hne : t.buckets.length ≠ 0) :
    t.getBucketIndex h < t.buckets.length := by
  unfold getBucketIndex
  have h1 : h % max (t.buckets.length - 1) 1 < max (t.buckets.length - 1) 1 :=
    Nat.mod_lt _ (by omega)
  omega

/-- Inserting a key never makes contains true for a different key; at worst a
collision overwrites and makes it false. -/
theorem contains_insert_of_ne {g : FixedSizeHashTable} {x k : Nat} (hk : k ≠ x)
    (h : g.contains k = false) : (g.insert x).contains k = false := by
  unfold insert
  by_cases h0 : g.buckets.length = 0
  · rw [if_pos h0]; exact h
  · rw [if_neg h0]
    unfold contains at h ⊢
    simp only [List.length_set, if_neg h0]
    have hsame : ∀ hh : Nat,
        ({ g with buckets := g.buckets.set (g.getBucketIndex (g.hash x)) (some x) }
          : FixedSizeHashTable).getBucketIndex hh = g.getBucketIndex hh := by
      intro hh
      simp [getBucketIndex]
    rw [hsame]
    by_cases hb : g.getBucketIndex (g.hash k) = g.getBucketIndex (g.hash x)
    · rw [hb, getD_set_self _ _ _ (bucketIndex_lt g (g.hash x) h0)]
      simp only [beq_eq_false_iff_ne, ne_eq]
      intro hc
      exact absurd hc.symm hk
    · rw [getD_set_ne _ _ _ _ (fun hc => hb hc.symm)]
      rw [if_neg h0] at h
      exact h

end FixedSizeHashTable

/-! ## Counting lemmas for the main-queue eviction fuel -/

namespace Shard

theorem countSumL_set_none {l : List (Option Entry)} {i : Nat} {e : Entry}
    (hi : i < l.length) (hget : l.getD i none = some e) :
    countSumL (l.set i none) + e.numAccessed = countSumL l := by
  induction l generalizing i with
  | nil => simp at hi
  | cons o t ih =>
    cases i with
    | zero =>
      simp only [List.getD_cons_zero] at hget
      subst hget
      simp [List.set, countSumL]
      omega
    | succ j =>
      simp only [List.getD_cons_succ] at hget
      have hj : j < t.length := by simpa using hi
      cases o with
      | none => simp only [List.set, countSumL]; exact ih hj hget
      | some e2 =>
        simp only [List.set, countSumL]
        have := ih hj hget
        omega

theorem occCountL_set_none {l : List (Option Entry)} {i : Nat} {e : Entry}
    (hi : i < l.length) (hget : l.getD i none = some e) :
    occCountL (l.set i none) + 1 = occCountL l := by
  induction l generalizing i with
  | nil => simp at hi
  | cons o t ih =>
    cases i with
    | zero =>
      simp only [List.getD_cons_zero] at hget
      subst hget
      simp [List.set, occCountL]
      omega
    | succ j =>
      simp only [List.getD_cons_succ] at hget
      have hj : j < t.length := by simpa using hi
      cases o with
      | none => simp only [List.set, occCountL]; exact ih hj hget
      | some e2 =>
        simp only [List.set, occCountL]
        have := ih hj hget
        omega

theorem countSumL_set_fresh {l : List (Option Entry)} {i : Nat} (e : Entry)
    (hget : l.getD i none = none) :
    countSumL (l.set i (some e)) ≤ countSumL l + e.numAccessed := by
  induction l generalizing i with
  | nil => simp [List.set, countSumL]
  | cons o t ih =>
    cases i with
    | zero =>
      simp only [List.getD_cons_zero] at hget
      subst hget
      simp [List.set, countSumL]
      omega
    | succ j =>
      simp only [List.getD_cons_succ] at hget
      cases o with
      | none => simp only [List.set, countSumL]; exact ih hget
      | some e2 =>
        simp only [List.set, countSumL]
        have := ih hget
        omega

theorem occCountL_set_fresh {l : List (Option Entry)} {i : Nat} (e : Entry)
    (hget : l.getD i none = none) :
    occCountL (l.set i (some e)) ≤ occCountL l + 1 := by
  induction l generalizing i with
  | nil => simp [List.set, occCountL]
  | cons o t ih =>
    cases i with
    | zero =>
      simp only [List.getD_cons_zero] at hget
      subst hget
      simp [List.set, occCountL]
      omega
    | succ j =>
      simp only [List.getD_cons_succ] at hget
      cases o with
      | none => simp only [List.set, occCountL]; exact ih hget
      | some e2 =>
        simp only [List.set, occCountL]
        have := ih hget
        omega

theorem countSumL_le_three_occCountL {l : List (Option Entry)}
    (h : ∀ o ∈ l, ∀ e ∈ o, e.numAccessed ≤ 3) :
    countSumL l ≤ 3 * occCountL l := by
  induction l with
  | nil => simp [countSumL, occCountL]
  | cons o t ih =>
    have ht : ∀ o2 ∈ t, ∀ e ∈ o2, e.numAccessed ≤ 3 :=
      fun o2 ho2 => h o2 (List.mem_cons_of_mem _ ho2)
    cases o with
    | none => simp only [countSumL, occCountL]; exact ih ht
    | some e =>
      have he : e.numAccessed ≤ 3 := h (some e) (List.mem_cons_self _ _) e rfl
      simp only [countSumL, occCountL]
      have := ih ht
      omega

theorem occCountL_pos {l : List (Option Entry)} {i : Nat} {e : Entry}
    (hget : l.getD i none = some e) : 1 ≤ occCountL l := by
  induction l generalizing i with
  | nil => simp [List.getD] at hget
  | cons o t ih =>
    cases i with
    | zero =>
      simp only [List.getD_cons_zero] at hget
      subst hget
      simp [occCountL]
    | succ j =>
      simp only [List.getD_cons_succ] at hget
      cases o with
      | none => simpa [occCountL] using ih hget
      | some e2 => simp [occCountL]

theorem countSumL_ge {l : List (Option Entry)} {i : Nat} {e : Entry}
    (hget : l.getD i none = some e) : e.numAccessed ≤ countSumL l := by
  induction l generalizing i with
  | nil => simp [List.getD] at hget
  | cons o t ih =>
    cases i with
    | zero =>
      simp only [List.getD_cons_zero] at hget
      subst hget
      simp [countSumL]
    | succ j =>
      simp only [List.getD_cons_succ] at hget
      cases o with
      | none => simpa [countSumL] using ih hget
      | some e2 =>
        simp only [countSumL]
        have := ih hget
        omega

end Shard

theorem getD_mem {α : Type} {l : List (Option α)} {i : Nat} {e : α}
    (h : l.getD i none = some e) : some e ∈ l := by
  induction l generalizing i with
  | nil => simp [List.getD] at h
  | cons o t ih =>
    cases i with
    | zero =>
      simp only [List.getD_cons_zero] at h
      subst h
      exact List.mem_cons_self _ _
    | succ j =>
      simp only [List.getD_cons_succ] at h
      exact List.mem_cons_of_mem _ (ih h)

theorem mem_of_mem_set {α : Type} {l : List (Option α)} {i : Nat} {x o : Option α}
    (h : o ∈ l.set i x) : o ∈ l ∨ o = x := by
  induction l generalizing i with
  | nil => simp [List.set] at h
  | cons a t ih =>
    cases i with
    | zero =>
      rcases List.mem_cons.mp h with h1 | h2
      · exact Or.inr h1
      · exact Or.inl (List.mem_cons_of_mem _ h2)
    | succ j =>
      rcases List.mem_cons.mp h with h1 | h2
      · subst h1; exact Or.inl (List.mem_cons_self _ _)
      · rcases ih h2 with h3 | h3
        · exact Or.inl (List.mem_cons_of_mem _ h3)
        · exact Or.inr h3

/-! ## The shard invariant -/

/-- The slot referenced by an entry pointer. -/
def slotAt (s : Shard) : EntryPointer → Option Entry
  | .mainQueue i => s.mainQueue.get i
  | .smallQueue i => s.smallQueue.get i

/-- Invariant of a shard, parameterised by a list of keys whose index entry
is allowed to be stale in the middle of an insert (their pointers are
unconstrained; they own no queue slot).  With bad empty this is the full
cross-structure invariant:

1. both ring buffers satisfy the window invariant;
2. the slot referenced by each index entry of a non-stale key is occupied by
   an entry with that key;
3. and 4. every occupied slot of either queue is referenced by the index
   entry of its key, with the matching pointer kind;
5. a key mapped into the small queue is never in the ghost set;
6. and 7. every entry stored in a queue has an access count of at most 3 and
   a key that is not stale. -/
def InvE (s : Shard) (bad : List Nat) : Prop :=
  RBInv s.smallQueue ∧ RBInv s.mainQueue ∧
  (∀ p ∈ s.entryPointers, p.1 ∉ bad → (slotAt s p.2).map Entry.key = some p.1) ∧
  (∀ i < s.mainQueue.cap, ∀ e ∈ s.mainQueue.get i,
      mapGet s.entryPointers e.key = some (.mainQueue i)) ∧
  (∀ i < s.smallQueue.cap, ∀ e ∈ s.smallQueue.get i,
      mapGet s.entryPointers e.key = some (.smallQueue i)) ∧
  (∀ p ∈ s.entryPointers, p.2.isSmall = true → s.ghostQueue.contains p.1 = false) ∧
  (∀ o ∈ s.mainQueue.buffer, ∀ e ∈ o, e.numAccessed ≤ 3 ∧ e.key ∉ bad) ∧
  (∀ o ∈ s.smallQueue.buffer, ∀ e ∈ o, e.numAccessed ≤ 3 ∧ e.key ∉ bad)

/-- Full shard invariant: no stale keys. -/
def ShardInv (s : Shard) : Prop := InvE s []

/-- Main preservation lemma for the evict_main_queue loop: under the
invariant, with fuel exceeding the sum-of-counts-plus-occupancy measure of
the main queue, the loop terminates without any expect firing, preserves the
invariant, leaves the small queue, ghost set and stale keys untouched,
strictly shrinks the main queue unless it ends empty, and runs at most
max measure 1 iterations. -/
theorem evictMainLoop_spec :
    ∀ (fuel : Nat) (s : Shard) (bad : List Nat), InvE s bad →
    Shard.countSumL s.mainQueue.buffer + Shard.occCountL s.mainQueue.buffer < fuel →
    ∃ s2 n, Shard.evictMainLoop fuel s = some (s2, n) ∧ InvE s2 bad ∧
      s2.smallQueue = s.smallQueue ∧ s2.ghostQueue = s.ghostQueue ∧
      s2.mainQueue.cap = s.mainQueue.cap ∧
      (s2.mainQueue.len < s.mainQueue.len ∨ s2.mainQueue.len = 0) ∧
      (∀ k ∈ bad, mapGet s2.entryPointers k = mapGet s.entryPointers k) ∧
      n ≤ max (Shard.countSumL s.mainQueue.buffer + Shard.occCountL s.mainQueue.buffer) 1 := by
  intro fuel
  induction fuel with
  | zero =>
    intro s bad hinv hfuel
    omega
  | succ f ih =>
    intro s bad hinv hfuel
    obtain ⟨hrbS, hrbM, hptr, hrefM, hrefS, hgh, hcntM, hcntS⟩ := hinv
    have hps := RingBuffer.popFront_spec s.mainQueue hrbM
    obtain ⟨r, mq, hpop⟩ : ∃ r mq, s.mainQueue.popFront = (r, mq) := ⟨_, _, rfl⟩
    rw [hpop] at hps
    cases r with
    | none =>
      obtain ⟨hbuf, hlen0, hinvmq, hcapmq, hall⟩ := hps
      refine ⟨{ s with mainQueue := mq }, 1, ?_, ?_, rfl, rfl, hcapmq, Or.inr hlen0,
        fun k _ => rfl, Nat.le_max_right _ 1⟩
      · simp only [Shard.evictMainLoop, hpop]
      · refine ⟨hrbS, hinvmq, ?_, ?_, ?_, hgh, ?_, hcntS⟩
        · intro q hq hqb
          have hold := hptr q hq hqb
          cases hq2 : q.2 with
          | mainQueue i =>
            rw [hq2] at hold
            show ((mq.buffer.getD i none).map Entry.key) = some q.1
            rw [hbuf]
            exact hold
          | smallQueue i =>
            rw [hq2] at hold
            exact hold
        · intro i hi e2 he2
          have he3 : mq.buffer.getD i none = some e2 := he2
          rw [hbuf, hall i] at he3
          cases he3
        · intro i hi e2 he2
          exact hrefS i hi e2 he2
        · intro o ho e2 he2
          have ho2 : o ∈ mq.buffer := ho
          rw [hbuf] at ho2
          exact hcntM o ho2 e2 he2
    | some e =>
      obtain ⟨j, hj, hgetj, hbufmq, hlenmq, hinvmq, hcapmq⟩ := hps
      have hmemj : some e ∈ s.mainQueue.buffer := getD_mem hgetj
      have hemem := hcntM _ hmemj e rfl
      have hecnt : e.numAccessed ≤ 3 := hemem.1
      have hebad : e.key ∉ bad := hemem.2
      have hmg : mapGet s.entryPointers e.key = some (.mainQueue j) := hrefM j hj e hgetj
      have hslenle : s.mainQueue.len ≤ s.mainQueue.cap := hrbM.2.1
      have hocpos : 1 ≤ Shard.occCountL s.mainQueue.buffer := Shard.occCountL_pos hgetj
      have hcspos : e.numAccessed ≤ Shard.countSumL s.mainQueue.buffer :=
        Shard.countSumL_ge hgetj
      have hσ1 : Shard.countSumL mq.buffer + e.numAccessed =
          Shard.countSumL s.mainQueue.buffer := by
        rw [hbufmq]
        exact Shard.countSumL_set_none hj hgetj
      have hσ2 : Shard.occCountL mq.buffer + 1 = Shard.occCountL s.mainQueue.buffer := by
        rw [hbufmq]
        exact Shard.occCountL_set_none hj hgetj
      -- the cleared slot j and any slot occupied in mq
      have hmqj : mq.buffer.getD j none = none := by
        rw [hbufmq]
        exact getD_set_self _ _ _ hj
      have hmqother : ∀ i, i ≠ j → mq.buffer.getD i none = s.mainQueue.buffer.getD i none := by
        intro i hi
        rw [hbufmq]
        exact getD_set_ne _ _ _ _ (fun hc => hi hc.symm)
      by_cases hcnt : 0 < e.getNumAccessed
      · -- reinsert branch
        have hcnt2 : 0 < e.numAccessed := hcnt
        have hltmq : mq.len < mq.cap := by rw [hcapmq]; omega
        obtain ⟨p, mq2, hpush, hp, hfresh, hbuf2, hhead2, hlen2, hcap2, hinv2⟩ :=
          RingBuffer.pushBack_spec mq (e.setNumAccessed (max 0 (e.getNumAccessed - 1)))
            hinvmq hltmq
        have hekey : (e.setNumAccessed (max 0 (e.getNumAccessed - 1))).key = e.key := rfl
        have hecnt2 : (e.setNumAccessed (max 0 (e.getNumAccessed - 1))).numAccessed =
            e.numAccessed - 1 := by
          simp [Entry.setNumAccessed, Entry.getNumAccessed]
        have hrein : Shard.reinsertIntoMainQueue { s with mainQueue := mq } e
            (max 0 (e.getNumAccessed - 1)) =
            some { s with mainQueue := mq2, entryPointers := mapInsert s.entryPointers e.key (.mainQueue p) } := by
          simp only [Shard.reinsertIntoMainQueue, hmg, hpush]
        have heqred : Shard.evictMainLoop (f + 1) s =
            (Shard.evictMainLoop f { s with mainQueue := mq2, entryPointers := mapInsert s.entryPointers e.key (.mainQueue p) }).map
              (fun q => (q.1, q.2 + 1)) := by
          simp only [Shard.evictMainLoop, hpop, if_pos hcnt, hrein]
        -- measure strictly decreases
        have hσ3 : Shard.countSumL mq2.buffer ≤
            Shard.countSumL mq.buffer + (e.numAccessed - 1) := by
          rw [hbuf2]
          have := Shard.countSumL_set_fresh
            (e.setNumAccessed (max 0 (e.getNumAccessed - 1))) hfresh
          rwa [hecnt2] at this
        have hσ4 : Shard.occCountL mq2.buffer ≤ Shard.occCountL mq.buffer + 1 := by
          rw [hbuf2]
          exact Shard.occCountL_set_fresh _ hfresh
        have hΦT : Shard.countSumL mq2.buffer + Shard.occCountL mq2.buffer < f := by
          omega
        -- invariant for the reinserted state
        have hinvT : InvE { s with mainQueue := mq2, entryPointers := mapInsert s.entryPointers e.key (.mainQueue p) } bad := by
          have hmq2p : mq2.buffer.getD p none =
              some (e.setNumAccessed (max 0 (e.getNumAccessed - 1))) := by
            rw [hbuf2]
            exact getD_set_self _ _ _ hp
          have hmq2other : ∀ i, i ≠ p → mq2.buffer.getD i none = mq.buffer.getD i none := by
            intro i hi
            rw [hbuf2]
            exact getD_set_ne _ _ _ _ (fun hc => hi hc.symm)
          refine ⟨hrbS, hinv2, ?_, ?_, ?_, ?_, ?_, ?_⟩
          · intro q hq hqb
            rcases mem_mapInsert hq with hq1 | ⟨hq2, hq3⟩
            · subst hq1
              show ((mq2.buffer.getD p none).map Entry.key) = some e.key
              rw [hmq2p]
              rfl
            · have hold := hptr q hq2 hqb
              cases hq4 : q.2 with
              | smallQueue i =>
                rw [hq4] at hold
                exact hold
              | mainQueue i =>
                rw [hq4] at hold
                show ((mq2.buffer.getD i none).map Entry.key) = some q.1
                have hij : i ≠ j := by
                  intro hc
                  subst hc
                  rw [show slotAt s (.mainQueue i) = s.mainQueue.buffer.getD i none from rfl,
                    hgetj, Option.map_some'] at hold
                  exact hq3 (Option.some.inj hold).symm
                have hip : i ≠ p := by
                  intro hc
                  subst hc
                  rw [show slotAt s (.mainQueue i) = s.mainQueue.buffer.getD i none from rfl]
                    at hold
                  rw [← hmqother i hij, hfresh] at hold
                  cases hold
                rw [hmq2other i hip, hmqother i hij]
                exact hold
          · intro i hi e2 he2
            have he3 : mq2.buffer.getD i none = some e2 := he2
            by_cases hip : i = p
            · subst hip
              rw [hmq2p] at he3
              cases he3
              rw [mapGet_mapInsert]
              rw [show (e.setNumAccessed (max 0 (e.getNumAccessed - 1))).key = e.key from rfl]
              rw [if_pos rfl]
            · rw [hmq2other i hip] at he3
              have hij : i ≠ j := by
                intro hc
                subst hc
                rw [hmqj] at he3
                cases he3
              rw [hmqother i hij] at he3
              have hi2 : i < s.mainQueue.cap := by
                rw [← hcapmq, ← hcap2]
                exact hi
              have hold := hrefM i hi2 e2 he3
              have hkne : e2.key ≠ e.key := by
                intro hc
                rw [hc, hmg] at hold
                cases hold
                exact hij rfl
              rw [mapGet_mapInsert, if_neg (fun hc => hkne hc.symm)]
              exact hold
          · intro i hi e2 he2
            have hold := hrefS i hi e2 he2
            have hkne : e2.key ≠ e.key := by
              intro hc
              rw [hc, hmg] at hold
              cases hold
            rw [mapGet_mapInsert, if_neg (fun hc => hkne hc.symm)]
            exact hold
          · intro q hq hqs
            rcases mem_mapInsert hq with hq1 | ⟨hq2, hq3⟩
            · subst hq1
              simp [EntryPointer.isSmall] at hqs
            · exact hgh q hq2 hqs
          · intro o ho e2 he2
            have ho2 : o ∈ mq2.buffer := ho
            rw [hbuf2] at ho2
            rcases mem_of_mem_set ho2 with ho3 | ho4
            · rw [hbufmq] at ho3
              rcases mem_of_mem_set ho3 with ho5 | ho6
              · exact hcntM o ho5 e2 he2
              · subst ho6; cases he2
            · subst ho4
              cases he2
              constructor
              · rw [hecnt2]; omega
              · rw [hekey]; exact hebad
          · intro o ho e2 he2
            exact hcntS o ho e2 he2
        obtain ⟨s3, n3, heq3, hinv3, hsm3, hgh3, hcap3, hlen3, hmap3, hn3⟩ :=
          ih _ bad hinvT hΦT
        refine ⟨s3, n3 + 1, ?_, hinv3, hsm3, hgh3, ?_, ?_, ?_, ?_⟩
        · rw [heqred, heq3]
          rfl
        · rw [hcap3]
          show mq2.cap = s.mainQueue.cap
          rw [hcap2, hcapmq]
        · have hlT : mq2.len = mq.len + 1 := hlen2
          rcases hlen3 with h3 | h3
          · left
            have : s3.mainQueue.len < mq2.len := h3
            omega
          · right; exact h3
        · intro k hk
          rw [hmap3 k hk]
          show mapGet (mapInsert s.entryPointers e.key (.mainQueue p)) k =
            mapGet s.entryPointers k
          rw [mapGet_mapInsert, if_neg (fun hc => hebad (by rw [hc]; exact hk))]
        · have hb3 : n3 ≤ max (Shard.countSumL mq2.buffer + Shard.occCountL mq2.buffer) 1 :=
            hn3
          omega
      · -- terminal removal branch: access count zero
        have heqred : Shard.evictMainLoop (f + 1) s =
            some ({ s with mainQueue := mq, entryPointers := mapRemove s.entryPointers e.key }, 1) := by
          simp only [Shard.evictMainLoop, hpop, if_neg hcnt]
        refine ⟨_, 1, heqred, ?_, rfl, rfl, hcapmq, Or.inl hlenmq, ?_, Nat.le_max_right _ 1⟩
        · refine ⟨hrbS, hinvmq, ?_, ?_, ?_, ?_, ?_, ?_⟩
          · intro q hq hqb
            obtain ⟨hq2, hq3⟩ := mem_mapRemove hq
            have hold := hptr q hq2 hqb
            cases hq4 : q.2 with
            | smallQueue i =>
              rw [hq4] at hold
              exact hold
            | mainQueue i =>
              rw [hq4] at hold
              show ((mq.buffer.getD i none).map Entry.key) = some q.1
              have hij : i ≠ j := by
                intro hc
                subst hc
                rw [show slotAt s (.mainQueue i) = s.mainQueue.buffer.getD i none from rfl,
                  hgetj, Option.map_some'] at hold
                exact hq3 (Option.some.inj hold).symm
              rw [hmqother i hij]
              exact hold
          · intro i hi e2 he2
            have he3 : mq.buffer.getD i none = some e2 := he2
            have hij : i ≠ j := by
              intro hc
              subst hc
              rw [hmqj] at he3
              cases he3
            rw [hmqother i hij] at he3
            have hi2 : i < s.mainQueue.cap := by
              rw [← hcapmq]
              exact hi
            have hold := hrefM i hi2 e2 he3
            have hkne : e2.key ≠ e.key := by
              intro hc
              rw [hc, hmg] at hold
              cases hold
              exact hij rfl
            rw [mapGet_mapRemove, if_neg (fun hc => hkne hc.symm)]
            exact hold
          · intro i hi e2 he2
            have hold := hrefS i hi e2 he2
            have hkne : e2.key ≠ e.key := by
              intro hc
              rw [hc, hmg] at hold
              cases hold
            rw [mapGet_mapRemove, if_neg (fun hc => hkne hc.symm)]
            exact hold
          · intro q hq hqs
            obtain ⟨hq2, _⟩ := mem_mapRemove hq
            exact hgh q hq2 hqs
          · intro o ho e2 he2
            have ho2 : o ∈ mq.buffer := ho
            rw [hbufmq] at ho2
            rcases mem_of_mem_set ho2 with ho3 | ho4
            · exact hcntM o ho3 e2 he2
            · subst ho4; cases he2
          · intro o ho e2 he2
            exact hcntS o ho e2 he2
        · intro k hk
          show mapGet (mapRemove s.entryPointers e.key) k = mapGet s.entryPointers k
          rw [mapGet_mapRemove, if_neg (fun hc => hebad (by rw [hc]; exact hk))]

theorem mem_getD {α : Type} {l : List (Option α)} {o : Option α} (h : o ∈ l) :
    ∃ i, i < l.length ∧ l.getD i none = o := by
  induction l with
  | nil => cases h
  | cons a t ih =>
    rcases List.mem_cons.mp h with h1 | h2
    · exact ⟨0, by simp, by simp [h1.symm]⟩
    · obtain ⟨i, hi, hg⟩ := ih h2
      exact ⟨i + 1, by simpa using hi, by simpa using hg⟩

/-- Totality and preservation for Shard::evict_main_queue. -/
theorem evictMainQueue_spec (s : Shard) (bad : List Nat) (hinv : InvE s bad) :
    ∃ s2, Shard.evictMainQueue s = some s2 ∧ InvE s2 bad ∧
      s2.smallQueue = s.smallQueue ∧ s2.ghostQueue = s.ghostQueue ∧
      s2.mainQueue.cap = s.mainQueue.cap ∧
      (s2.mainQueue.len < s.mainQueue.len ∨ s2.mainQueue.len = 0) ∧
      (∀ k ∈ bad, mapGet s2.entryPointers k = mapGet s.entryPointers k) := by
  obtain ⟨s2, n, heq, h1, h2, h3, h4, h5, h6, _⟩ :=
    evictMainLoop_spec (Shard.mainFuel s) s bad hinv (by unfold Shard.mainFuel; omega)
  refine ⟨s2, ?_, h1, h2, h3, h4, h5, h6⟩
  unfold Shard.evictMainQueue
  rw [heq]
  rfl

/-- Totality, preservation and branch characterization for
Shard::evict_small_queue. -/
theorem evictSmallQueue_spec (s : Shard) (bad : List Nat) (hinv : InvE s bad) :
    ∃ s2, Shard.evictSmallQueue s = some s2 ∧ InvE s2 bad ∧
      s2.smallQueue.cap = s.smallQueue.cap ∧ s2.mainQueue.cap = s.mainQueue.cap ∧
      s2.smallQueue.len ≤ s.smallQueue.len ∧
      (1 ≤ s.smallQueue.len → s2.smallQueue.len < s.smallQueue.len) ∧
      (∀ k ∈ bad, mapGet s2.entryPointers k = mapGet s.entryPointers k) ∧
      (∀ k ∈ bad, s.ghostQueue.contains k = false → s2.ghostQueue.contains k = false) ∧
      (match s.smallQueue.popFront with
       | (none, sq) => s2 = { s with smallQueue := sq }
       | (some e, sq) =>
         if 1 < e.getNumAccessed then
           ∃ p, p < s2.mainQueue.cap ∧
             mapGet s2.entryPointers e.key = some (.mainQueue p) ∧
             s2.mainQueue.get p = some (e.setNumAccessed 0) ∧
             s2.ghostQueue = s.ghostQueue ∧ s2.smallQueue = sq
         else
           s2 = { s with smallQueue := sq, entryPointers := mapRemove s.entryPointers e.key, ghostQueue := s.ghostQueue.insert e.key }) := by
  obtain ⟨hrbS, hrbM, hptr, hrefM, hrefS, hgh, hcntM, hcntS⟩ := hinv
  have hps := RingBuffer.popFront_spec s.smallQueue hrbS
  obtain ⟨r, sq, hpop⟩ : ∃ r sq, s.smallQueue.popFront = (r, sq) := ⟨_, _, rfl⟩
  rw [hpop] at hps
  cases r with
  | none =>
    obtain ⟨hbuf, hlen0, hinvsq, hcapsq, hall⟩ := hps
    refine ⟨{ s with smallQueue := sq }, ?_, ?_, hcapsq, rfl,
      (show sq.len ≤ s.smallQueue.len by omega),
      fun h1 => show sq.len < s.smallQueue.len by omega,
      fun k _ => rfl, fun k _ h => h, by rw [hpop]⟩
    · simp only [Shard.evictSmallQueue, hpop]
    · refine ⟨hinvsq, hrbM, ?_, ?_, ?_, hgh, hcntM, ?_⟩
      · intro q hq hqb
        have hold := hptr q hq hqb
        cases hq2 : q.2 with
        | smallQueue i =>
          rw [hq2] at hold
          show ((sq.buffer.getD i none).map Entry.key) = some q.1
          rw [hbuf]
          exact hold
        | mainQueue i =>
          rw [hq2] at hold
          exact hold
      · intro i hi e2 he2
        exact hrefM i hi e2 he2
      · intro i hi e2 he2
        have he3 : sq.buffer.getD i none = some e2 := he2
        rw [hbuf, hall i] at he3
        cases he3
      · intro o ho e2 he2
        have ho2 : o ∈ sq.buffer := ho
        rw [hbuf] at ho2
        exact hcntS o ho2 e2 he2
  | some e =>
    obtain ⟨j, hj, hgetj, hbufsq, hlensq, hinvsq, hcapsq⟩ := hps
    have hmemj : some e ∈ s.smallQueue.buffer := getD_mem hgetj
    have hemem := hcntS _ hmemj e rfl
    have hecnt : e.numAccessed ≤ 3 := hemem.1
    have hebad : e.key ∉ bad := hemem.2
    have hmg : mapGet s.entryPointers e.key = some (.smallQueue j) := hrefS j hj e hgetj
    have hsqj : sq.buffer.getD j none = none := by
      rw [hbufsq]
      exact getD_set_self _ _ _ hj
    have hsqother : ∀ i, i ≠ j → sq.buffer.getD i none = s.smallQueue.buffer.getD i none := by
      intro i hi
      rw [hbufsq]
      exact getD_set_ne _ _ _ _ (fun hc => hi hc.symm)
    -- no occupied slot of either queue carries the popped key
    have hmainkeys : ∀ i < s.mainQueue.cap, ∀ e2 ∈ s.mainQueue.get i, e2.key ≠ e.key := by
      intro i hi e2 he2 hc
      have := hrefM i hi e2 he2
      rw [hc, hmg] at this
      cases this
    have hsmallkeys : ∀ i, i ≠ j → ∀ e2, sq.buffer.getD i none = some e2 → e2.key ≠ e.key := by
      intro i hij e2 he2 hc
      rw [hsqother i hij] at he2
      have hi2 : i < s.smallQueue.cap := by
        by_cases hlt : i < s.smallQueue.buffer.length
        · exact hlt
        · exfalso
          rw [getD_of_length_le _ _ (by omega)] at he2
          cases he2
      have := hrefS i hi2 e2 he2
      rw [hc, hmg] at this
      cases this
      exact hij rfl
    by_cases hpr : 1 < e.getNumAccessed
    · -- promote branch
      have hinv1 : InvE { s with smallQueue := sq } (e.key :: bad) := by
        refine ⟨hinvsq, hrbM, ?_, ?_, ?_, hgh, ?_, ?_⟩
        · intro q hq hqb
          have hqb2 : q.1 ∉ bad := fun hc => hqb (List.mem_cons_of_mem _ hc)
          have hqke : q.1 ≠ e.key := fun hc => hqb (by rw [hc]; exact List.mem_cons_self _ _)
          have hold := hptr q hq hqb2
          cases hq2 : q.2 with
          | mainQueue i =>
            rw [hq2] at hold
            exact hold
          | smallQueue i =>
            rw [hq2] at hold
            show ((sq.buffer.getD i none).map Entry.key) = some q.1
            have hij : i ≠ j := by
              intro hceq
              subst hceq
              rw [show slotAt s (.smallQueue i) = s.smallQueue.buffer.getD i none from rfl,
                hgetj, Option.map_some'] at hold
              exact hqke (Option.some.inj hold).symm
            rw [hsqother i hij]
            exact hold
        · intro i hi e2 he2
          exact hrefM i hi e2 he2
        · intro i hi e2 he2
          have he3 : sq.buffer.getD i none = some e2 := he2
          have hij : i ≠ j := by
            intro hceq
            subst hceq
            rw [hsqj] at he3
            cases he3
          have hi2 : i < s.smallQueue.cap := by rw [← hcapsq]; exact hi
          rw [hsqother i hij] at he3
          exact hrefS i hi2 e2 he3
        · intro o ho e2 he2
          obtain ⟨h1, h2⟩ := hcntM o ho e2 he2
          refine ⟨h1, fun hc => ?_⟩
          rcases List.mem_cons.mp hc with hc1 | hc2
          · obtain ⟨i, hi, hgeti⟩ := mem_getD ho
            have he3 : s.mainQueue.get i = some e2 := by
              show s.mainQueue.buffer.getD i none = some e2
              rw [hgeti]
              exact he2
            exact hmainkeys i hi e2 he3 hc1
          · exact h2 hc2
        · intro o ho e2 he2
          have he2b : o = some e2 := he2
          have ho2 : o ∈ sq.buffer := ho
          obtain ⟨i, hi, hgeti⟩ := mem_getD ho2
          have he3 : sq.buffer.getD i none = some e2 := by rw [hgeti, he2b]
          have hij : i ≠ j := by
            intro hceq
            rw [hceq, hsqj] at he3
            cases he3
          have hkeyne := hsmallkeys i hij e2 he3
          have he4 := he3
          rw [hsqother i hij] at he4
          obtain ⟨h1, h2⟩ := hcntS (some e2) (getD_mem he4) e2 rfl
          exact ⟨h1, fun hc =>
            (List.mem_cons.mp hc).elim (fun hc1 => hkeyne hc1) (fun hc2 => h2 hc2)⟩
      obtain ⟨s2mid, heqmid, hinvmid, hsmmid, hghmid, hcapmid, hlenmid, hmapmid⟩ :
          ∃ s2mid,
            (if s.mainQueue.isFull = true then Shard.evictMainQueue { s with smallQueue := sq } else some { s with smallQueue := sq }) = some s2mid ∧
            InvE s2mid (e.key :: bad) ∧ s2mid.smallQueue = sq ∧
            s2mid.ghostQueue = s.ghostQueue ∧
            s2mid.mainQueue.cap = s.mainQueue.cap ∧
            s2mid.mainQueue.len < s.mainQueue.cap ∧
            (∀ k ∈ (e.key :: bad), mapGet s2mid.entryPointers k =
              mapGet s.entryPointers k) := by
        by_cases hfull : s.mainQueue.isFull = true
        · obtain ⟨s2, he1, he2e, he3, he4, he5, he6, he7⟩ :=
            evictMainQueue_spec { s with smallQueue := sq } (e.key :: bad) hinv1
          rw [if_pos hfull]
          have hlenfull : s.mainQueue.len = s.mainQueue.cap := by
            simpa [RingBuffer.isFull] using hfull
          have hcap1 : 0 < s.mainQueue.cap := by
            have := hrbM.1
            omega
          refine ⟨s2, he1, he2e, he3, he4, he5, ?_, he7⟩
          rcases he6 with h6 | h6
          · have h6b : s2.mainQueue.len < s.mainQueue.len := h6
            omega
          · omega
        · rw [if_neg hfull]
          have hne : ¬ s.mainQueue.len = s.mainQueue.cap := by
            simpa [RingBuffer.isFull] using hfull
          have hle := hrbM.2.1
          exact ⟨{ s with smallQueue := sq }, rfl, hinv1, rfl, rfl, rfl,
            (show s.mainQueue.len < s.mainQueue.cap by omega), fun k _ => rfl⟩
      have hmgmid : mapGet s2mid.entryPointers e.key = some (.smallQueue j) := by
        rw [hmapmid e.key (List.mem_cons_self _ _)]
        exact hmg
      have hrbmid : RBInv s2mid.mainQueue := hinvmid.2.1
      obtain ⟨p, mq2, hpush, hp, hfresh, hbuf2, hhead2, hlen2, hcap2, hinv2⟩ :=
        RingBuffer.pushBack_spec s2mid.mainQueue (e.setNumAccessed 0) hrbmid
          (by rw [hcapmid]; exact hlenmid)
      have heq : Shard.evictSmallQueue s =
          some { s2mid with mainQueue := mq2, entryPointers := mapInsert s2mid.entryPointers e.key (.mainQueue p) } := by
        simp only [Shard.evictSmallQueue, hpop, if_pos hpr, heqmid, hmgmid, hpush]
      obtain ⟨hrbSm, hrbMm, hptrm, hrefMm, hrefSm, hghm2, hcntMm, hcntSm⟩ := hinvmid
      have hmq2p : mq2.buffer.getD p none = some (e.setNumAccessed 0) := by
        rw [hbuf2]
        exact getD_set_self _ _ _ hp
      have hmq2other : ∀ i, i ≠ p →
          mq2.buffer.getD i none = s2mid.mainQueue.buffer.getD i none := by
        intro i hi
        rw [hbuf2]
        exact getD_set_ne _ _ _ _ (fun hc => hi hc.symm)
      refine ⟨_, heq, ?_, ?_, ?_, ?_, ?_, ?_, ?_, ?_⟩
      · -- InvE of the final state
        refine ⟨hrbSm, hinv2, ?_, ?_, ?_, ?_, ?_, ?_⟩
        · intro q hq hqb
          rcases mem_mapInsert hq with hq1 | ⟨hq2, hq3⟩
          · subst hq1
            show ((mq2.buffer.getD p none).map Entry.key) = some e.key
            rw [hmq2p]
            rfl
          · have hqb2 : q.1 ∉ e.key :: bad := by
              intro hc
              rcases List.mem_cons.mp hc with hc1 | hc2
              · exact hq3 hc1
              · exact hqb hc2
            have hold := hptrm q hq2 hqb2
            cases hq4 : q.2 with
            | smallQueue i =>
              rw [hq4] at hold
              exact hold
            | mainQueue i =>
              rw [hq4] at hold
              show ((mq2.buffer.getD i none).map Entry.key) = some q.1
              have hip : i ≠ p := by
                intro hceq
                subst hceq
                rw [show slotAt s2mid (.mainQueue i) =
                  s2mid.mainQueue.buffer.getD i none from rfl, hfresh] at hold
                cases hold
              rw [hmq2other i hip]
              exact hold
        · intro i hi e2 he2
          have he3 : mq2.buffer.getD i none = some e2 := he2
          by_cases hip : i = p
          · subst hip
            rw [hmq2p] at he3
            cases he3
            rw [mapGet_mapInsert]
            rw [show (e.setNumAccessed 0).key = e.key from rfl]
            rw [if_pos rfl]
          · rw [hmq2other i hip] at he3
            have hi2 : i < s2mid.mainQueue.cap := by rw [← hcap2]; exact hi
            have hold := hrefMm i hi2 e2 he3
            have hkne : e2.key ≠ e.key := by
              intro hc
              rw [hc, hmgmid] at hold
              cases hold
            rw [mapGet_mapInsert, if_neg (fun hc => hkne hc.symm)]
            exact hold
        · intro i hi e2 he2
          have hold := hrefSm i hi e2 he2
          have he3 : s2mid.smallQueue.buffer.getD i none = some e2 := he2
          have hkne : e2.key ≠ e.key := by
            have := hcntSm (some e2) (getD_mem he3) e2 rfl
            exact fun hc => this.2 (by rw [hc]; exact List.mem_cons_self _ _)
          rw [mapGet_mapInsert, if_neg (fun hc => hkne hc.symm)]
          exact hold
        · intro q hq hqs
          rcases mem_mapInsert hq with hq1 | ⟨hq2, hq3⟩
          · subst hq1
            simp [EntryPointer.isSmall] at hqs
          · exact hghm2 q hq2 hqs
        · intro o ho e2 he2
          have ho2 : o ∈ mq2.buffer := ho
          rw [hbuf2] at ho2
          rcases mem_of_mem_set ho2 with ho3 | ho4
          · obtain ⟨h1, h2⟩ := hcntMm o ho3 e2 he2
            exact ⟨h1, fun hc => h2 (List.mem_cons_of_mem _ hc)⟩
          · have he2b : o = some e2 := he2
            rw [ho4] at he2b
            cases he2b
            exact ⟨by show (0 : Nat) ≤ 3; omega, hebad⟩
        · intro o ho e2 he2
          obtain ⟨h1, h2⟩ := hcntSm o ho e2 he2
          exact ⟨h1, fun hc => h2 (List.mem_cons_of_mem _ hc)⟩
      · show s2mid.smallQueue.cap = s.smallQueue.cap
        rw [hsmmid]
        exact hcapsq
      · show mq2.cap = s.mainQueue.cap
        rw [hcap2]
        exact hcapmid
      · show s2mid.smallQueue.len ≤ s.smallQueue.len
        rw [hsmmid]
        omega
      · intro h1
        show s2mid.smallQueue.len < s.smallQueue.len
        rw [hsmmid]
        exact hlensq
      · intro k hk
        show mapGet (mapInsert s2mid.entryPointers e.key (.mainQueue p)) k =
          mapGet s.entryPointers k
        rw [mapGet_mapInsert, if_neg (fun hc => hebad (by rw [hc]; exact hk))]
        exact hmapmid k (List.mem_cons_of_mem _ hk)
      · intro k hk hcont
        show s2mid.ghostQueue.contains k = false
        rw [hghmid]
        exact hcont
      · simp only [hpop]
        rw [if_pos hpr]
        refine ⟨p, ?_, ?_, ?_, ?_, ?_⟩
        · show p < mq2.cap
          rw [hcap2]
          exact hp
        · show mapGet (mapInsert s2mid.entryPointers e.key (.mainQueue p)) e.key =
            some (.mainQueue p)
          rw [mapGet_mapInsert, if_pos rfl]
        · show mq2.buffer.getD p none = some (e.setNumAccessed 0)
          exact hmq2p
        · show s2mid.ghostQueue = s.ghostQueue
          exact hghmid
        · show s2mid.smallQueue = sq
          exact hsmmid
    · -- retire branch
      have heq : Shard.evictSmallQueue s =
          some { s with smallQueue := sq, entryPointers := mapRemove s.entryPointers e.key, ghostQueue := s.ghostQueue.insert e.key } := by
        simp only [Shard.evictSmallQueue, hpop, if_neg hpr]
      refine ⟨_, heq, ?_, hcapsq, rfl,
        (show sq.len ≤ s.smallQueue.len by omega),
        fun h1 => show sq.len < s.smallQueue.len from hlensq, ?_, ?_, ?_⟩
      · refine ⟨hinvsq, hrbM, ?_, ?_, ?_, ?_, ?_, ?_⟩
        · intro q hq hqb
          obtain ⟨hq2, hq3⟩ := mem_mapRemove hq
          have hold := hptr q hq2 hqb
          cases hq4 : q.2 with
          | mainQueue i =>
            rw [hq4] at hold
            exact hold
          | smallQueue i =>
            rw [hq4] at hold
            show ((sq.buffer.getD i none).map Entry.key) = some q.1
            have hij : i ≠ j := by
              intro hceq
              subst hceq
              rw [show slotAt s (.smallQueue i) = s.smallQueue.buffer.getD i none from rfl,
                hgetj, Option.map_some'] at hold
              exact hq3 (Option.some.inj hold).symm
            rw [hsqother i hij]
            exact hold
        · intro i hi e2 he2
          have hi2 : i < s.mainQueue.cap := hi
          have hold := hrefM i hi2 e2 he2
          have hkne := hmainkeys i hi2 e2 he2
          rw [mapGet_mapRemove, if_neg (fun hc => hkne hc.symm)]
          exact hold
        · intro i hi e2 he2
          have he3 : sq.buffer.getD i none = some e2 := he2
          have hij : i ≠ j := by
            intro hceq
            rw [hceq, hsqj] at he3
            cases he3
          have hkne := hsmallkeys i hij e2 he3
          have hi2 : i < s.smallQueue.cap := by rw [← hcapsq]; exact hi
          have he4 := he3
          rw [hsqother i hij] at he4
          have hold := hrefS i hi2 e2 he4
          rw [mapGet_mapRemove, if_neg (fun hc => hkne hc.symm)]
          exact hold
        · intro q hq hqs
          obtain ⟨hq2, hq3⟩ := mem_mapRemove hq
          have hold := hgh q hq2 hqs
          exact FixedSizeHashTable.contains_insert_of_ne hq3 hold
        · intro o ho e2 he2
          exact hcntM o ho e2 he2
        · intro o ho e2 he2
          have ho2 : o ∈ sq.buffer := ho
          rw [hbufsq] at ho2
          rcases mem_of_mem_set ho2 with ho3 | ho4
          · exact hcntS o ho3 e2 he2
          · have he2b : o = some e2 := he2
            rw [ho4] at he2b
            cases he2b
      · intro k hk
        show mapGet (mapRemove s.entryPointers e.key) k = mapGet s.entryPointers k
        rw [mapGet_mapRemove, if_neg (fun hc => hebad (by rw [hc]; exact hk))]
      · intro k hk hcont
        show (s.ghostQueue.insert e.key).contains k = false
        exact FixedSizeHashTable.contains_insert_of_ne
          (fun hc => hebad (by rw [← hc]; exact hk)) hcont
      · simp only [hpop]
        rw [if_neg hpr]
        trivial

/-- Totality and preservation for Shard::insert_into_main_queue, called with
a fresh entry whose key is the only stale key. -/
theorem insertIntoMainQueue_spec (s : Shard) (bad : List Nat) (entry : Entry)
    (hinv : InvE s (entry.key :: bad)) (hkb : entry.key ∉ bad)
    (hcnt : entry.numAccessed ≤ 3) :
    ∃ s2 p, Shard.insertIntoMainQueue s entry = some s2 ∧ InvE s2 bad ∧
      mapGet s2.entryPointers entry.key = some (.mainQueue p) ∧
      p < s2.mainQueue.cap ∧ s2.mainQueue.get p = some entry ∧
      s2.smallQueue = s.smallQueue ∧ s2.ghostQueue = s.ghostQueue ∧
      s2.smallQueue.cap = s.smallQueue.cap ∧ s2.mainQueue.cap = s.mainQueue.cap := by
  have hrbM : RBInv s.mainQueue := hinv.2.1
  obtain ⟨s1, heqmid, hinvmid, hsmmid, hghmid, hcapmid, hlenmid, hmapmid⟩ :
      ∃ s1,
        (if s.mainQueue.isFull = true then Shard.evictMainQueue s else some s) = some s1 ∧
        InvE s1 (entry.key :: bad) ∧ s1.smallQueue = s.smallQueue ∧
        s1.ghostQueue = s.ghostQueue ∧
        s1.mainQueue.cap = s.mainQueue.cap ∧
        s1.mainQueue.len < s.mainQueue.cap ∧
        (∀ k ∈ (entry.key :: bad), mapGet s1.entryPointers k =
          mapGet s.entryPointers k) := by
    by_cases hfull : s.mainQueue.isFull = true
    · obtain ⟨s1, he1, he2e, he3, he4, he5, he6, he7⟩ :=
        evictMainQueue_spec s (entry.key :: bad) hinv
      rw [if_pos hfull]
      have hlenfull : s.mainQueue.len = s.mainQueue.cap := by
        simpa [RingBuffer.isFull] using hfull
      have hcap1 : 0 < s.mainQueue.cap := by
        have := hrbM.1
        omega
      refine ⟨s1, he1, he2e, he3, he4, he5, ?_, he7⟩
      omega
    · rw [if_neg hfull]
      have hne : ¬ s.mainQueue.len = s.mainQueue.cap := by
        simpa [RingBuffer.isFull] using hfull
      have hle := hrbM.2.1
      exact ⟨s, rfl, hinv, rfl, rfl, rfl,
        (show s.mainQueue.len < s.mainQueue.cap by omega), fun k _ => rfl⟩
  obtain ⟨hrbSm, hrbMm, hptrm, hrefMm, hrefSm, hghm2, hcntMm, hcntSm⟩ := hinvmid
  obtain ⟨p, mq2, hpush, hp, hfresh, hbuf2, hhead2, hlen2, hcap2, hinv2⟩ :=
    RingBuffer.pushBack_spec s1.mainQueue entry hrbMm (by rw [hcapmid]; exact hlenmid)
  have heq : Shard.insertIntoMainQueue s entry =
      some { s1 with mainQueue := mq2, entryPointers := mapInsert s1.entryPointers entry.key (.mainQueue p) } := by
    simp only [Shard.insertIntoMainQueue, heqmid, hpush]
  have hmq2p : mq2.buffer.getD p none = some entry := by
    rw [hbuf2]
    exact getD_set_self _ _ _ hp
  have hmq2other : ∀ i, i ≠ p →
      mq2.buffer.getD i none = s1.mainQueue.buffer.getD i none := by
    intro i hi
    rw [hbuf2]
    exact getD_set_ne _ _ _ _ (fun hc => hi hc.symm)
  refine ⟨_, p, heq, ?_, ?_, ?_, ?_, hsmmid, hghmid, ?_, ?_⟩
  · refine ⟨hrbSm, hinv2, ?_, ?_, ?_, ?_, ?_, ?_⟩
    · intro q hq hqb
      rcases mem_mapInsert hq with hq1 | ⟨hq2, hq3⟩
      · subst hq1
        show ((mq2.buffer.getD p none).map Entry.key) = some entry.key
        rw [hmq2p]
        rfl
      · have hqb2 : q.1 ∉ entry.key :: bad := by
          intro hc
          rcases List.mem_cons.mp hc with hc1 | hc2
          · exact hq3 hc1
          · exact hqb hc2
        have hold := hptrm q hq2 hqb2
        cases hq4 : q.2 with
        | smallQueue i =>
          rw [hq4] at hold
          exact hold
        | mainQueue i =>
          rw [hq4] at hold
          show ((mq2.buffer.getD i none).map Entry.key) = some q.1
          have hip : i ≠ p := by
            intro hceq
            subst hceq
            rw [show slotAt s1 (.mainQueue i) =
              s1.mainQueue.buffer.getD i none from rfl, hfresh] at hold
            cases hold
          rw [hmq2other i hip]
          exact hold
    · intro i hi e2 he2
      have he3 : mq2.buffer.getD i none = some e2 := he2
      by_cases hip : i = p
      · subst hip
        rw [hmq2p] at he3
        cases he3
        rw [mapGet_mapInsert, if_pos rfl]
      · rw [hmq2other i hip] at he3
        have hi2 : i < s1.mainQueue.cap := by rw [← hcap2]; exact hi
        have hold := hrefMm i hi2 e2 he3
        have hkne : e2.key ≠ entry.key := by
          have := hcntMm (some e2) (getD_mem he3) e2 rfl
          exact fun hc => this.2 (by rw [hc]; exact List.mem_cons_self _ _)
        rw [mapGet_mapInsert, if_neg (fun hc => hkne hc.symm)]
        exact hold
    · intro i hi e2 he2
      have he3 : s1.smallQueue.buffer.getD i none = some e2 := he2
      have hold := hrefSm i hi e2 he2
      have hkne : e2.key ≠ entry.key := by
        have := hcntSm (some e2) (getD_mem he3) e2 rfl
        exact fun hc => this.2 (by rw [hc]; exact List.mem_cons_self _ _)
      rw [mapGet_mapInsert, if_neg (fun hc => hkne hc.symm)]
      exact hold
    · intro q hq hqs
      rcases mem_mapInsert hq with hq1 | ⟨hq2, hq3⟩
      · subst hq1
        simp [EntryPointer.isSmall] at hqs
      · exact hghm2 q hq2 hqs
    · intro o ho e2 he2
      have ho2 : o ∈ mq2.buffer := ho
      rw [hbuf2] at ho2
      rcases mem_of_mem_set ho2 with ho3 | ho4
      · obtain ⟨h1, h2⟩ := hcntMm o ho3 e2 he2
        exact ⟨h1, fun hc => h2 (List.mem_cons_of_mem _ hc)⟩
      · have he2b : o = some e2 := he2
        rw [ho4] at he2b
        cases he2b
        exact ⟨hcnt, hkb⟩
    · intro o ho e2 he2
      obtain ⟨h1, h2⟩ := hcntSm o ho e2 he2
      exact ⟨h1, fun hc => h2 (List.mem_cons_of_mem _ hc)⟩
  · show mapGet (mapInsert s1.entryPointers entry.key (.mainQueue p)) entry.key =
      some (.mainQueue p)
    rw [mapGet_mapInsert, if_pos rfl]
  · show p < mq2.cap
    rw [hcap2]
    exact hp
  · show mq2.buffer.getD p none = some entry
    exact hmq2p
  · show s1.smallQueue.cap = s.smallQueue.cap
    rw [hsmmid]
  · show mq2.cap = s.mainQueue.cap
    rw [hcap2]
    exact hcapmid

/-- Totality and preservation for Shard::insert_into_small_queue, called with
a fresh entry, not in the ghost set, whose key is the only stale key. -/
theorem insertIntoSmallQueue_spec (s : Shard) (bad : List Nat) (entry : Entry)
    (hinv : InvE s (entry.key :: bad)) (hkb : entry.key ∉ bad)
    (hcnt : entry.numAccessed ≤ 3)
    (hcont : s.ghostQueue.contains entry.key = false) :
    ∃ s2 p, Shard.insertIntoSmallQueue s entry = some s2 ∧ InvE s2 bad ∧
      mapGet s2.entryPointers entry.key = some (.smallQueue p) ∧
      p < s2.smallQueue.cap ∧ s2.smallQueue.get p = some entry ∧
      s2.mainQueue.cap = s.mainQueue.cap ∧ s2.smallQueue.cap = s.smallQueue.cap := by
  have hrbS : RBInv s.smallQueue := hinv.1
  obtain ⟨s1, heqmid, hinvmid, hcapsmid, hcapmmid, _, hlenmid, hmapmid, hghfmid⟩ :
      ∃ s1,
        (if s.smallQueue.isFull = true then Shard.evictSmallQueue s else some s) = some s1 ∧
        InvE s1 (entry.key :: bad) ∧ s1.smallQueue.cap = s.smallQueue.cap ∧
        s1.mainQueue.cap = s.mainQueue.cap ∧
        s1.smallQueue.len ≤ s.smallQueue.len ∧
        s1.smallQueue.len < s.smallQueue.cap ∧
        (∀ k ∈ (entry.key :: bad), mapGet s1.entryPointers k =
          mapGet s.entryPointers k) ∧
        (∀ k ∈ (entry.key :: bad), s.ghostQueue.contains k = false →
          s1.ghostQueue.contains k = false) := by
    by_cases hfull : s.smallQueue.isFull = true
    · obtain ⟨s1, he1, he2e, he3, he4, he5, he6, he7, he8, _⟩ :=
        evictSmallQueue_spec s (entry.key :: bad) hinv
      rw [if_pos hfull]
      have hlenfull : s.smallQueue.len = s.smallQueue.cap := by
        simpa [RingBuffer.isFull] using hfull
      have hcap1 : 0 < s.smallQueue.cap := by
        have := hrbS.1
        omega
      refine ⟨s1, he1, he2e, he3, he4, he5, ?_, he7, he8⟩
      have := he6 (by omega)
      omega
    · rw [if_neg hfull]
      have hne : ¬ s.smallQueue.len = s.smallQueue.cap := by
        simpa [RingBuffer.isFull] using hfull
      have hle := hrbS.2.1
      exact ⟨s, rfl, hinv, rfl, rfl, Nat.le_refl _,
        (show s.smallQueue.len < s.smallQueue.cap by omega),
        fun k _ => rfl, fun k _ h => h⟩
  obtain ⟨hrbSm, hrbMm, hptrm, hrefMm, hrefSm, hghm2, hcntMm, hcntSm⟩ := hinvmid
  obtain ⟨p, sq2, hpush, hp, hfresh, hbuf2, hhead2, hlen2, hcap2, hinv2⟩ :=
    RingBuffer.pushBack_spec s1.smallQueue entry hrbSm (by rw [hcapsmid]; exact hlenmid)
  have heq : Shard.insertIntoSmallQueue s entry =
      some { s1 with smallQueue := sq2, entryPointers := mapInsert s1.entryPointers entry.key (.smallQueue p) } := by
    simp only [Shard.insertIntoSmallQueue, heqmid, hpush]
  have hsq2p : sq2.buffer.getD p none = some entry := by
    rw [hbuf2]
    exact getD_set_self _ _ _ hp
  have hsq2other : ∀ i, i ≠ p →
      sq2.buffer.getD i none = s1.smallQueue.buffer.getD i none := by
    intro i hi
    rw [hbuf2]
    exact getD_set_ne _ _ _ _ (fun hc => hi hc.symm)
  have hghcont : s1.ghostQueue.contains entry.key = false :=
    hghfmid entry.key (List.mem_cons_self _ _) hcont
  refine ⟨_, p, heq, ?_, ?_, ?_, ?_, ?_, ?_⟩
  · refine ⟨hinv2, hrbMm, ?_, ?_, ?_, ?_, ?_, ?_⟩
    · intro q hq hqb
      rcases mem_mapInsert hq with hq1 | ⟨hq2, hq3⟩
      · subst hq1
        show ((sq2.buffer.getD p none).map Entry.key) = some entry.key
        rw [hsq2p]
        rfl
      · have hqb2 : q.1 ∉ entry.key :: bad := by
          intro hc
          rcases List.mem_cons.mp hc with hc1 | hc2
          · exact hq3 hc1
          · exact hqb hc2
        have hold := hptrm q hq2 hqb2
        cases hq4 : q.2 with
        | mainQueue i =>
          rw [hq4] at hold
          exact hold
        | smallQueue i =>
          rw [hq4] at hold
          show ((sq2.buffer.getD i none).map Entry.key) = some q.1
          have hip : i ≠ p := by
            intro hceq
            subst hceq
            rw [show slotAt s1 (.smallQueue i) =
              s1.smallQueue.buffer.getD i none from rfl, hfresh] at hold
            cases hold
          rw [hsq2other i hip]
          exact hold
    · intro i hi e2 he2
      have he3 : s1.mainQueue.buffer.getD i none = some e2 := he2
      have hold := hrefMm i hi e2 he2
      have hkne : e2.key ≠ entry.key := by
        have := hcntMm (some e2) (getD_mem he3) e2 rfl
        exact fun hc => this.2 (by rw [hc]; exact List.mem_cons_self _ _)
      rw [mapGet_mapInsert, if_neg (fun hc => hkne hc.symm)]
      exact hold
    · intro i hi e2 he2
      have he3 : sq2.buffer.getD i none = some e2 := he2
      by_cases hip : i = p
      · subst hip
        rw [hsq2p] at he3
        cases he3
        rw [mapGet_mapInsert, if_pos rfl]
      · rw [hsq2other i hip] at he3
        have hi2 : i < s1.smallQueue.cap := by rw [← hcap2]; exact hi
        have hold := hrefSm i hi2 e2 he3
        have hkne : e2.key ≠ entry.key := by
          have := hcntSm (some e2) (getD_mem he3) e2 rfl
          exact fun hc => this.2 (by rw [hc]; exact List.mem_cons_self _ _)
        rw [mapGet_mapInsert, if_neg (fun hc => hkne hc.symm)]
        exact hold
    · intro q hq hqs
      rcases mem_mapInsert hq with hq1 | ⟨hq2, hq3⟩
      · subst hq1
        exact hghcont
      · exact hghm2 q hq2 hqs
    · intro o ho e2 he2
      obtain ⟨h1, h2⟩ := hcntMm o ho e2 he2
      exact ⟨h1, fun hc => h2 (List.mem_cons_of_mem _ hc)⟩
    · intro o ho e2 he2
      have ho2 : o ∈ sq2.buffer := ho
      rw [hbuf2] at ho2
      rcases mem_of_mem_set ho2 with ho3 | ho4
      · obtain ⟨h1, h2⟩ := hcntSm o ho3 e2 he2
        exact ⟨h1, fun hc => h2 (List.mem_cons_of_mem _ hc)⟩
      · have he2b : o = some e2 := he2
        rw [ho4] at he2b
        cases he2b
        exact ⟨hcnt, hkb⟩
  · show mapGet (mapInsert s1.entryPointers entry.key (.smallQueue p)) entry.key =
      some (.smallQueue p)
    rw [mapGet_mapInsert, if_pos rfl]
  · show p < sq2.cap
    rw [hcap2]
    exact hp
  · show sq2.buffer.getD p none = some entry
    exact hsq2p
  · show s1.mainQueue.cap = s.mainQueue.cap
    exact hcapmmid
  · show sq2.cap = s.smallQueue.cap
    rw [hcap2]
    exact hcapsmid

theorem updateAccessCount_key (e : Entry) : (Shard.updateAccessCount e).key = e.key := by
  unfold Shard.updateAccessCount
  by_cases h : e.getNumAccessed ≥ 3
  · rw [if_pos h]
  · rw [if_neg h]
    unfold Entry.incrementNumAccessed
    rw [if_pos (show e.numAccessed = e.getNumAccessed from rfl)]

theorem updateAccessCount_value (e : Entry) :
    (Shard.updateAccessCount e).value = e.value := by
  unfold Shard.updateAccessCount
  by_cases h : e.getNumAccessed ≥ 3
  · rw [if_pos h]
  · rw [if_neg h]
    unfold Entry.incrementNumAccessed
    rw [if_pos (show e.numAccessed = e.getNumAccessed from rfl)]

theorem updateAccessCount_cnt (e : Entry) (h : e.numAccessed ≤ 3) :
    (Shard.updateAccessCount e).numAccessed ≤ 3 := by
  unfold Shard.updateAccessCount
  by_cases h3 : e.getNumAccessed ≥ 3
  · rw [if_pos h3]
    exact h
  · rw [if_neg h3]
    unfold Entry.incrementNumAccessed
    rw [if_pos (show e.numAccessed = e.getNumAccessed from rfl)]
    show (e.getNumAccessed + 1) % 256 ≤ 3
    have hlt : e.getNumAccessed < 3 := by
      have : e.getNumAccessed = e.numAccessed := rfl
      omega
    rw [Nat.mod_eq_of_lt (by omega)]
    omega

/-- Writing an occupied slot in place preserves the ring-buffer invariant. -/
theorem setSlot_RBInv {α : Type} (rb : RingBuffer α) (i : Nat) (v : α)
    (hinv : RBInv rb) (hocc : (rb.buffer.getD i none).isSome = true) :
    RBInv (rb.setSlot i v) ∧ (rb.setSlot i v).cap = rb.cap := by
  obtain ⟨hhead, hlen, hwin⟩ := hinv
  have hcap : (rb.setSlot i v).cap = rb.cap := by
    simp [RingBuffer.setSlot, RingBuffer.cap]
  refine ⟨⟨by rw [hcap]; exact hhead, by rw [hcap]; exact hlen, ?_⟩, hcap⟩
  intro j hj hs
  rw [hcap] at hj
  rw [hcap]
  show rdist rb.cap rb.head j < rb.len
  have hs2 : ((rb.buffer.set i (some v)).getD j none).isSome = true := hs
  by_cases hji : j = i
  · subst hji
    exact hwin j hj hocc
  · rw [getD_set_ne _ _ _ _ (fun hc => hji hc.symm)] at hs2
    exact hwin j hj hs2

/-- Totality, preservation and result characterization for Shard::get. -/
theorem get_spec (s : Shard) (key : Nat) (hinv : ShardInv s) :
    ∃ r s2, Shard.get s key = some (r, s2) ∧ ShardInv s2 ∧
      s2.entryPointers = s.entryPointers ∧ s2.ghostQueue = s.ghostQueue ∧
      s2.smallQueue.cap = s.smallQueue.cap ∧ s2.mainQueue.cap = s.mainQueue.cap ∧
      r = ((mapGet s.entryPointers key).bind (fun p => (slotAt s p).map Entry.value)) := by
  obtain ⟨hrbS, hrbM, hptr, hrefM, hrefS, hgh, hcntM, hcntS⟩ := hinv
  cases hmk : mapGet s.entryPointers key with
  | none =>
    refine ⟨none, s, ?_, ⟨hrbS, hrbM, hptr, hrefM, hrefS, hgh, hcntM, hcntS⟩,
      rfl, rfl, rfl, rfl, rfl⟩
    simp only [Shard.get, hmk]
  | some ptr =>
    have hpair : (key, ptr) ∈ s.entryPointers := mapGet_mem hmk
    have hslot := hptr (key, ptr) hpair (by simp)
    cases ptr with
    | mainQueue i =>
      obtain ⟨e, hge, hek⟩ : ∃ e, s.mainQueue.buffer.getD i none = some e ∧ e.key = key := by
        cases hg : s.mainQueue.buffer.getD i none with
        | none =>
          rw [show slotAt s (.mainQueue i) = s.mainQueue.buffer.getD i none from rfl, hg]
            at hslot
          cases hslot
        | some e =>
          rw [show slotAt s (.mainQueue i) = s.mainQueue.buffer.getD i none from rfl, hg,
            Option.map_some'] at hslot
          exact ⟨e, rfl, Option.some.inj hslot⟩
      have hge2 : s.mainQueue.get i = some e := hge
      have hocc : (s.mainQueue.buffer.getD i none).isSome = true := by rw [hge]; rfl
      obtain ⟨hinvm2, hcapm2⟩ :=
        setSlot_RBInv s.mainQueue i (Shard.updateAccessCount e) hrbM hocc
      have hcntold := (hcntM (some e) (getD_mem hge) e rfl).1
      have heq : Shard.get s key = some (some e.value,
          { s with mainQueue := s.mainQueue.setSlot i (Shard.updateAccessCount e) }) := by
        simp only [Shard.get, hmk, hge2]
      have hnewslot : (s.mainQueue.setSlot i (Shard.updateAccessCount e)).buffer.getD i none
          = some (Shard.updateAccessCount e) := by
        show (s.mainQueue.buffer.set i (some (Shard.updateAccessCount e))).getD i none = _
        refine getD_set_self _ _ _ ?_
        by_cases hb : i < s.mainQueue.buffer.length
        · exact hb
        · exfalso
          rw [getD_of_length_le _ _ (by omega)] at hge
          cases hge
      have hnewother : ∀ i2, i2 ≠ i →
          (s.mainQueue.setSlot i (Shard.updateAccessCount e)).buffer.getD i2 none =
            s.mainQueue.buffer.getD i2 none := by
        intro i2 hi2
        show (s.mainQueue.buffer.set i (some (Shard.updateAccessCount e))).getD i2 none = _
        exact getD_set_ne _ _ _ _ (fun hc => hi2 hc.symm)
      refine ⟨some e.value, _, heq, ?_, rfl, rfl, rfl, hcapm2, ?_⟩
      · refine ⟨hrbS, hinvm2, ?_, ?_, ?_, hgh, ?_, hcntS⟩
        · intro q hq hqb
          have hold := hptr q hq (by simp)
          cases hq2 : q.2 with
          | smallQueue i2 =>
            rw [hq2] at hold
            exact hold
          | mainQueue i2 =>
            rw [hq2] at hold
            show (((s.mainQueue.setSlot i (Shard.updateAccessCount e)).buffer.getD i2
              none).map Entry.key) = some q.1
            by_cases hi2 : i2 = i
            · subst hi2
              rw [show slotAt s (.mainQueue i2) = s.mainQueue.buffer.getD i2 none from rfl,
                hge, Option.map_some'] at hold
              rw [hnewslot, Option.map_some', updateAccessCount_key]
              exact hold
            · rw [hnewother i2 hi2]
              exact hold
        · intro i2 hi2 e2 he2
          have he3 : (s.mainQueue.setSlot i (Shard.updateAccessCount e)).buffer.getD i2 none
              = some e2 := he2
          have hi2b : i2 < s.mainQueue.cap := by rw [← hcapm2]; exact hi2
          by_cases hii : i2 = i
          · subst hii
            rw [hnewslot] at he3
            cases he3
            rw [updateAccessCount_key, hek]
            exact hmk
          · rw [hnewother i2 hii] at he3
            exact hrefM i2 hi2b e2 he3
        · intro i2 hi2 e2 he2
          exact hrefS i2 hi2 e2 he2
        · intro o ho e2 he2
          have ho2 : o ∈ (s.mainQueue.buffer.set i (some (Shard.updateAccessCount e))) := ho
          rcases mem_of_mem_set ho2 with ho3 | ho4
          · exact hcntM o ho3 e2 he2
          · have he2b : o = some e2 := he2
            rw [ho4] at he2b
            cases he2b
            exact ⟨updateAccessCount_cnt e hcntold, by simp⟩
      · show some e.value = (slotAt s (.mainQueue i)).map Entry.value
        rw [show slotAt s (.mainQueue i) = s.mainQueue.buffer.getD i none from rfl, hge,
          Option.map_some']
    | smallQueue i =>
      obtain ⟨e, hge, hek⟩ : ∃ e, s.smallQueue.buffer.getD i none = some e ∧ e.key = key := by
        cases hg : s.smallQueue.buffer.getD i none with
        | none =>
          rw [show slotAt s (.smallQueue i) = s.smallQueue.buffer.getD i none from rfl, hg]
            at hslot
          cases hslot
        | some e =>
          rw [show slotAt s (.smallQueue i) = s.smallQueue.buffer.getD i none from rfl, hg,
            Option.map_some'] at hslot
          exact ⟨e, rfl, Option.some.inj hslot⟩
      have hge2 : s.smallQueue.get i = some e := hge
      have hocc : (s.smallQueue.buffer.getD i none).isSome = true := by rw [hge]; rfl
      obtain ⟨hinvs2, hcaps2⟩ :=
        setSlot_RBInv s.smallQueue i (Shard.updateAccessCount e) hrbS hocc
      have hcntold := (hcntS (some e) (getD_mem hge) e rfl).1
      have heq : Shard.get s key = some (some e.value,
          { s with smallQueue := s.smallQueue.setSlot i (Shard.updateAccessCount e) }) := by
        simp only [Shard.get, hmk, hge2]
      have hnewslot : (s.smallQueue.setSlot i (Shard.updateAccessCount e)).buffer.getD i none
          = some (Shard.updateAccessCount e) := by
        show (s.smallQueue.buffer.set i (some (Shard.updateAccessCount e))).getD i none = _
        refine getD_set_self _ _ _ ?_
        by_cases hb : i < s.smallQueue.buffer.length
        · exact hb
        · exfalso
          rw [getD_of_length_le _ _ (by omega)] at hge
          cases hge
      have hnewother : ∀ i2, i2 ≠ i →
          (s.smallQueue.setSlot i (Shard.updateAccessCount e)).buffer.getD i2 none =
            s.smallQueue.buffer.getD i2 none := by
        intro i2 hi2
        show (s.smallQueue.buffer.set i (some (Shard.updateAccessCount e))).getD i2 none = _
        exact getD_set_ne _ _ _ _ (fun hc => hi2 hc.symm)
      refine ⟨some e.value, _, heq, ?_, rfl, rfl, hcaps2, rfl, ?_⟩
      · refine ⟨hinvs2, hrbM, ?_, ?_, ?_, hgh, hcntM, ?_⟩
        · intro q hq hqb
          have hold := hptr q hq (by simp)
          cases hq2 : q.2 with
          | mainQueue i2 =>
            rw [hq2] at hold
            exact hold
          | smallQueue i2 =>
            rw [hq2] at hold
            show (((s.smallQueue.setSlot i (Shard.updateAccessCount e)).buffer.getD i2
              none).map Entry.key) = some q.1
            by_cases hi2 : i2 = i
            · subst hi2
              rw [show slotAt s (.smallQueue i2) = s.smallQueue.buffer.getD i2 none from rfl,
                hge, Option.map_some'] at hold
              rw [hnewslot, Option.map_some', updateAccessCount_key]
              exact hold
            · rw [hnewother i2 hi2]
              exact hold
        · intro i2 hi2 e2 he2
          exact hrefM i2 hi2 e2 he2
        · intro i2 hi2 e2 he2
          have he3 : (s.smallQueue.setSlot i (Shard.updateAccessCount e)).buffer.getD i2 none
              = some e2 := he2
          have hi2b : i2 < s.smallQueue.cap := by rw [← hcaps2]; exact hi2
          by_cases hii : i2 = i
          · subst hii
            rw [hnewslot] at he3
            cases he3
            rw [updateAccessCount_key, hek]
            exact hmk
          · rw [hnewother i2 hii] at he3
            exact hrefS i2 hi2b e2 he3
        · intro o ho e2 he2
          have ho2 : o ∈ (s.smallQueue.buffer.set i (some (Shard.updateAccessCount e))) := ho
          rcases mem_of_mem_set ho2 with ho3 | ho4
          · exact hcntS o ho3 e2 he2
          · have he2b : o = some e2 := he2
            rw [ho4] at he2b
            cases he2b
            exact ⟨updateAccessCount_cnt e hcntold, by simp⟩
      · show some e.value = (slotAt s (.smallQueue i)).map Entry.value
        rw [show slotAt s (.smallQueue i) = s.smallQueue.buffer.getD i none from rfl, hge,
          Option.map_some']

/-- Totality, preservation and characterization for Shard::insert: the prior
value at the key is returned, the fresh zero-count entry lands in the main
queue exactly when the ghost set contains the key, and in the small queue
otherwise. -/
theorem insert_spec (s : Shard) (key value : Nat) (hinv : ShardInv s) :
    ∃ r s2 ptr, Shard.insert s key value = some (r, s2) ∧ ShardInv s2 ∧
      r = ((mapGet s.entryPointers key).bind (fun p => (slotAt s p).map Entry.value)) ∧
      mapGet s2.entryPointers key = some ptr ∧
      slotAt s2 ptr = some (Entry.new key value) ∧
      (ptr.isSmall = false ↔ s.ghostQueue.contains key = true) ∧
      s2.smallQueue.cap = s.smallQueue.cap ∧ s2.mainQueue.cap = s.mainQueue.cap := by
  obtain ⟨hrbS, hrbM, hptr, hrefM, hrefS, hgh, hcntM, hcntS⟩ := hinv
  cases hmk : mapGet s.entryPointers key with
  | none =>
    have hinv1 : InvE s [key] := by
      refine ⟨hrbS, hrbM, ?_, hrefM, hrefS, hgh, ?_, ?_⟩
      · intro q hq hqb
        exact hptr q hq (by simp)
      · intro o ho e2 he2
        obtain ⟨h1, h2⟩ := hcntM o ho e2 he2
        refine ⟨h1, fun hc => ?_⟩
        have hc2 : e2.key = key := by simpa using hc
        obtain ⟨i, hi, hgeti⟩ := mem_getD ho
        have he3 : s.mainQueue.buffer.getD i none = some e2 := by
          rw [hgeti]
          exact he2
        have hthis := hrefM i hi e2 he3
        rw [hc2, hmk] at hthis
        cases hthis
      · intro o ho e2 he2
        obtain ⟨h1, h2⟩ := hcntS o ho e2 he2
        refine ⟨h1, fun hc => ?_⟩
        have hc2 : e2.key = key := by simpa using hc
        obtain ⟨i, hi, hgeti⟩ := mem_getD ho
        have he3 : s.smallQueue.buffer.getD i none = some e2 := by
          rw [hgeti]
          exact he2
        have hthis := hrefS i hi e2 he3
        rw [hc2, hmk] at hthis
        cases hthis
    by_cases hcont : s.ghostQueue.contains key = true
    · obtain ⟨s2, p, heq2, hinv2, hmg2, hp2, hslot2, hsm2, hgh2, hcapS2, hcapM2⟩ :=
        insertIntoMainQueue_spec s [] (Entry.new key value) hinv1 (by simp) (Nat.zero_le 3)
      refine ⟨none, s2, .mainQueue p, ?_, hinv2, rfl, hmg2, hslot2, ?_, hcapS2, hcapM2⟩
      · simp only [Shard.insert, hmk]
        rw [if_pos hcont, heq2]
      · simp [EntryPointer.isSmall, hcont]
    · obtain ⟨s2, p, heq2, hinv2, hmg2, hp2, hslot2, hcapM2, hcapS2⟩ :=
        insertIntoSmallQueue_spec s [] (Entry.new key value) hinv1 (by simp) (Nat.zero_le 3)
          (by simpa using hcont)
      refine ⟨none, s2, .smallQueue p, ?_, hinv2, rfl, hmg2, hslot2, ?_, hcapS2, hcapM2⟩
      · simp only [Shard.insert, hmk]
        rw [if_neg hcont, heq2]
      · simp only [EntryPointer.isSmall]
        constructor
        · intro hfalse
          cases hfalse
        · intro htrue
          exact absurd htrue hcont
  | some ptr =>
    have hpair : (key, ptr) ∈ s.entryPointers := mapGet_mem hmk
    have hslot := hptr (key, ptr) hpair (by simp)
    cases ptr with
    | mainQueue i =>
      obtain ⟨eOld, hge, hek⟩ : ∃ e, s.mainQueue.buffer.getD i none = some e ∧
          e.key = key := by
        cases hg : s.mainQueue.buffer.getD i none with
        | none =>
          rw [show slotAt s (.mainQueue i) = s.mainQueue.buffer.getD i none from rfl, hg]
            at hslot
          cases hslot
        | some e =>
          rw [show slotAt s (.mainQueue i) = s.mainQueue.buffer.getD i none from rfl, hg,
            Option.map_some'] at hslot
          exact ⟨e, rfl, Option.some.inj hslot⟩
      have hi : i < s.mainQueue.cap := by
        by_cases hb : i < s.mainQueue.buffer.length
        · exact hb
        · exfalso
          rw [getD_of_length_le _ _ (by omega)] at hge
          cases hge
      obtain ⟨hr1, hr2, hr3, hr4, hr5, hr6⟩ := RingBuffer.remove_spec s.mainQueue i hrbM
      have hs1j : (s.mainQueue.remove i).2.buffer.getD i none = none := by
        rw [hr2]
        exact getD_set_self _ _ _ hi
      have hs1other : ∀ i2, i2 ≠ i → (s.mainQueue.remove i).2.buffer.getD i2 none =
          s.mainQueue.buffer.getD i2 none := by
        intro i2 hi2
        rw [hr2]
        exact getD_set_ne _ _ _ _ (fun hc => hi2 hc.symm)
      have hinv1 : InvE { s with mainQueue := (s.mainQueue.remove i).2 } [key] := by
        refine ⟨hrbS, hr6, ?_, ?_, ?_, hgh, ?_, ?_⟩
        · intro q hq hqb
          have hqk : q.1 ≠ key := fun hc => hqb (by rw [hc]; exact List.mem_cons_self _ _)
          have hold := hptr q hq (by simp)
          cases hq2 : q.2 with
          | smallQueue i2 =>
            rw [hq2] at hold
            exact hold
          | mainQueue i2 =>
            rw [hq2] at hold
            show (((s.mainQueue.remove i).2.buffer.getD i2 none).map Entry.key) = some q.1
            have hii : i2 ≠ i := by
              intro hceq
              subst hceq
              rw [show slotAt s (.mainQueue i2) = s.mainQueue.buffer.getD i2 none from rfl,
                hge, Option.map_some'] at hold
              have hkq := Option.some.inj hold
              rw [hek] at hkq
              exact hqk hkq.symm
            rw [hs1other i2 hii]
            exact hold
        · intro i2 hi2 e2 he2
          have he3 : (s.mainQueue.remove i).2.buffer.getD i2 none = some e2 := he2
          have hii : i2 ≠ i := by
            intro hceq
            rw [hceq, hs1j] at he3
            cases he3
          rw [hs1other i2 hii] at he3
          have hi2b : i2 < s.mainQueue.cap := by rw [← hr5]; exact hi2
          exact hrefM i2 hi2b e2 he3
        · intro i2 hi2 e2 he2
          exact hrefS i2 hi2 e2 he2
        · intro o ho e2 he2
          have ho2 : o ∈ (s.mainQueue.remove i).2.buffer := ho
          rw [hr2] at ho2
          rcases mem_of_mem_set ho2 with ho3 | ho4
          · obtain ⟨h1, h2⟩ := hcntM o ho3 e2 he2
            refine ⟨h1, fun hc => ?_⟩
            have hc2 : e2.key = key := by simpa using hc
            obtain ⟨i2, hi2, hgeti2⟩ := mem_getD ho
            have he3 : (s.mainQueue.remove i).2.buffer.getD i2 none = some e2 := by
              rw [hgeti2]
              exact he2
            have hii : i2 ≠ i := by
              intro hceq
              rw [hceq, hs1j] at he3
              cases he3
            rw [hs1other i2 hii] at he3
            have hi2b : i2 < s.mainQueue.cap := by
              have : i2 < (s.mainQueue.remove i).2.buffer.length := hi2
              have hlen : (s.mainQueue.remove i).2.buffer.length = s.mainQueue.buffer.length
                := by rw [hr2]; simp
              rw [hlen] at this
              exact this
            have hthis := hrefM i2 hi2b e2 he3
            rw [hc2] at hthis
            have h4 := hmk.symm.trans hthis
            have h5 : i = i2 := by simpa using h4
            exact hii h5.symm
          · have he2b : o = some e2 := he2
            rw [ho4] at he2b
            cases he2b
        · intro o ho e2 he2
          obtain ⟨h1, h2⟩ := hcntS o ho e2 he2
          refine ⟨h1, fun hc => ?_⟩
          have hc2 : e2.key = key := by simpa using hc
          obtain ⟨i2, hi2, hgeti2⟩ := mem_getD ho
          have he3 : s.smallQueue.buffer.getD i2 none = some e2 := by
            rw [hgeti2]
            exact he2
          have hthis := hrefS i2 hi2 e2 he3
          rw [hc2, hmk] at hthis
          simp at hthis
      by_cases hcont : s.ghostQueue.contains key = true
      · obtain ⟨s2, p, heq2, hinv2, hmg2, hp2, hslot2, hsm2, hgh2, hcapS2, hcapM2⟩ :=
          insertIntoMainQueue_spec { s with mainQueue := (s.mainQueue.remove i).2 } []
            (Entry.new key value) hinv1 (by simp) (Nat.zero_le 3)
        refine ⟨(s.mainQueue.buffer.getD i none).map Entry.value, s2, .mainQueue p, ?_,
          hinv2, rfl, hmg2, hslot2, ?_, ?_, ?_⟩
        · simp only [Shard.insert, hmk]
          rw [if_pos hcont, heq2]
          rfl
        · simp [EntryPointer.isSmall, hcont]
        · rw [hcapS2]
        · rw [hcapM2]
          show ((s.mainQueue.remove i).2).cap = s.mainQueue.cap
          exact hr5
      · obtain ⟨s2, p, heq2, hinv2, hmg2, hp2, hslot2, hcapM2, hcapS2⟩ :=
          insertIntoSmallQueue_spec { s with mainQueue := (s.mainQueue.remove i).2 } []
            (Entry.new key value) hinv1 (by simp) (Nat.zero_le 3) (by simpa using hcont)
        refine ⟨(s.mainQueue.buffer.getD i none).map Entry.value, s2, .smallQueue p, ?_,
          hinv2, rfl, hmg2, hslot2, ?_, ?_, ?_⟩
        · simp only [Shard.insert, hmk]
          rw [if_neg hcont, heq2]
          rfl
        · simp only [EntryPointer.isSmall]
          constructor
          · intro hfalse
            cases hfalse
          · intro htrue
            exact absurd htrue hcont
        · rw [hcapS2]
        · rw [hcapM2]
          show ((s.mainQueue.remove i).2).cap = s.mainQueue.cap
          exact hr5
    | smallQueue i =>
      obtain ⟨eOld, hge, hek⟩ : ∃ e, s.smallQueue.buffer.getD i none = some e ∧
          e.key = key := by
        cases hg : s.smallQueue.buffer.getD i none with
        | none =>
          rw [show slotAt s (.smallQueue i) = s.smallQueue.buffer.getD i none from rfl, hg]
            at hslot
          cases hslot
        | some e =>
          rw [show slotAt s (.smallQueue i) = s.smallQueue.buffer.getD i none from rfl, hg,
            Option.map_some'] at hslot
          exact ⟨e, rfl, Option.some.inj hslot⟩
      have hi : i < s.smallQueue.cap := by
        by_cases hb : i < s.smallQueue.buffer.length
        · exact hb
        · exfalso
          rw [getD_of_length_le _ _ (by omega)] at hge
          cases hge
      obtain ⟨hr1, hr2, hr3, hr4, hr5, hr6⟩ := RingBuffer.remove_spec s.smallQueue i hrbS
      have hs1j : (s.smallQueue.remove i).2.buffer.getD i none = none := by
        rw [hr2]
        exact getD_set_self _ _ _ hi
      have hs1other : ∀ i2, i2 ≠ i → (s.smallQueue.remove i).2.buffer.getD i2 none =
          s.smallQueue.buffer.getD i2 none := by
        intro i2 hi2
        rw [hr2]
        exact getD_set_ne _ _ _ _ (fun hc => hi2 hc.symm)
      have hinv1 : InvE { s with smallQueue := (s.smallQueue.remove i).2 } [key] := by
        refine ⟨hr6, hrbM, ?_, ?_, ?_, hgh, ?_, ?_⟩
        · intro q hq hqb
          have hqk : q.1 ≠ key := fun hc => hqb (by rw [hc]; exact List.mem_cons_self _ _)
          have hold := hptr q hq (by simp)
          cases hq2 : q.2 with
          | mainQueue i2 =>
            rw [hq2] at hold
            exact hold
          | smallQueue i2 =>
            rw [hq2] at hold
            show (((s.smallQueue.remove i).2.buffer.getD i2 none).map Entry.key) = some q.1
            have hii : i2 ≠ i := by
              intro hceq
              subst hceq
              rw [show slotAt s (.smallQueue i2) = s.smallQueue.buffer.getD i2 none from rfl,
                hge, Option.map_some'] at hold
              have hkq := Option.some.inj hold
              rw [hek] at hkq
              exact hqk hkq.symm
            rw [hs1other i2 hii]
            exact hold
        · intro i2 hi2 e2 he2
          exact hrefM i2 hi2 e2 he2
        · intro i2 hi2 e2 he2
          have he3 : (s.smallQueue.remove i).2.buffer.getD i2 none = some e2 := he2
          have hii : i2 ≠ i := by
            intro hceq
            rw [hceq, hs1j] at he3
            cases he3
          rw [hs1other i2 hii] at he3
          have hi2b : i2 < s.smallQueue.cap := by rw [← hr5]; exact hi2
          exact hrefS i2 hi2b e2 he3
        · intro o ho e2 he2
          obtain ⟨h1, h2⟩ := hcntM o ho e2 he2
          refine ⟨h1, fun hc => ?_⟩
          have hc2 : e2.key = key := by simpa using hc
          obtain ⟨i2, hi2, hgeti2⟩ := mem_getD ho
          have he3 : s.mainQueue.buffer.getD i2 none = some e2 := by
            rw [hgeti2]
            exact he2
          have hthis := hrefM i2 hi2 e2 he3
          rw [hc2, hmk] at hthis
          simp at hthis
        · intro o ho e2 he2
          have ho2 : o ∈ (s.smallQueue.remove i).2.buffer := ho
          rw [hr2] at ho2
          rcases mem_of_mem_set ho2 with ho3 | ho4
          · obtain ⟨h1, h2⟩ := hcntS o ho3 e2 he2
            refine ⟨h1, fun hc => ?_⟩
            have hc2 : e2.key = key := by simpa using hc
            obtain ⟨i2, hi2, hgeti2⟩ := mem_getD ho
            have he3 : (s.smallQueue.remove i).2.buffer.getD i2 none = some e2 := by
              rw [hgeti2]
              exact he2
            have hii : i2 ≠ i := by
              intro hceq
              rw [hceq, hs1j] at he3
              cases he3
            rw [hs1other i2 hii] at he3
            have hi2b : i2 < s.smallQueue.cap := by
              have hlt2 : i2 < (s.smallQueue.remove i).2.buffer.length := hi2
              have hlen : (s.smallQueue.remove i).2.buffer.length =
                  s.smallQueue.buffer.length := by rw [hr2]; simp
              rw [hlen] at hlt2
              exact hlt2
            have hthis := hrefS i2 hi2b e2 he3
            rw [hc2] at hthis
            have h4 := hmk.symm.trans hthis
            have h5 : i = i2 := by simpa using h4
            exact hii h5.symm
          · have he2b : o = some e2 := he2
            rw [ho4] at he2b
            cases he2b
      by_cases hcont : s.ghostQueue.contains key = true
      · obtain ⟨s2, p, heq2, hinv2, hmg2, hp2, hslot2, hsm2, hgh2, hcapS2, hcapM2⟩ :=
          insertIntoMainQueue_spec { s with smallQueue := (s.smallQueue.remove i).2 } []
            (Entry.new key value) hinv1 (by simp) (Nat.zero_le 3)
        refine ⟨(s.smallQueue.buffer.getD i none).map Entry.value, s2, .mainQueue p, ?_,
          hinv2, rfl, hmg2, hslot2, ?_, ?_, ?_⟩
        · simp only [Shard.insert, hmk]
          rw [if_pos hcont, heq2]
          rfl
        · simp [EntryPointer.isSmall, hcont]
        · rw [hcapS2]
          show ((s.smallQueue.remove i).2).cap = s.smallQueue.cap
          exact hr5
        · rw [hcapM2]
      · obtain ⟨s2, p, heq2, hinv2, hmg2, hp2, hslot2, hcapM2, hcapS2⟩ :=
          insertIntoSmallQueue_spec { s with smallQueue := (s.smallQueue.remove i).2 } []
            (Entry.new key value) hinv1 (by simp) (Nat.zero_le 3) (by simpa using hcont)
        refine ⟨(s.smallQueue.buffer.getD i none).map Entry.value, s2, .smallQueue p, ?_,
          hinv2, rfl, hmg2, hslot2, ?_, ?_, ?_⟩
        · simp only [Shard.insert, hmk]
          rw [if_neg hcont, heq2]
          rfl
        · simp only [EntryPointer.isSmall]
          constructor
          · intro hfalse
            cases hfalse
          · intro htrue
            exact absurd htrue hcont
        · rw [hcapS2]
          show ((s.smallQueue.remove i).2).cap = s.smallQueue.cap
          exact hr5
        · rw [hcapM2]

/-- A freshly constructed shard satisfies the invariant. -/
theorem shardInv_init (capacity : Nat) (hash : Nat → Nat) :
    ShardInv (Shard.withCapacityAndHasher capacity hash) := by
  have hrb : ∀ n : Nat, 1 ≤ n → RBInv (RingBuffer.withCapacity Entry n) := by
    intro n hn
    refine ⟨?_, ?_, ?_⟩
    · show 0 < (List.replicate n (none : Option Entry)).length
      rw [List.length_replicate]
      omega
    · show 0 ≤ (RingBuffer.withCapacity Entry n).cap
      exact Nat.zero_le _
    · intro j hj hs
      rw [show (RingBuffer.withCapacity Entry n).buffer =
        List.replicate n (none : Option Entry) from rfl, getD_replicate] at hs
      cases hs
  refine ⟨hrb _ (by omega), hrb _ (by omega), ?_, ?_, ?_, ?_, ?_, ?_⟩
  · intro q hq
    cases hq
  · intro i hi e2 he2
    have he3 : (List.replicate (max (capacity - max (capacity / 10) 1) 1)
        (none : Option Entry)).getD i none = some e2 := he2
    rw [getD_replicate] at he3
    cases he3
  · intro i hi e2 he2
    have he3 : (List.replicate (max (capacity / 10) 1)
        (none : Option Entry)).getD i none = some e2 := he2
    rw [getD_replicate] at he3
    cases he3
  · intro q hq
    cases hq
  · intro o ho e2 he2
    have := List.eq_of_mem_replicate ho
    rw [this] at he2
    cases he2
  · intro o ho e2 he2
    have := List.eq_of_mem_replicate ho
    rw [this] at he2
    cases he2

/-- Every public shard operation is total and preserves the invariant. -/
theorem applyOp_spec (s : Shard) (op : CacheOp) (hinv : ShardInv s) :
    ∃ s2, Shard.applyOp s op = some s2 ∧ ShardInv s2 := by
  cases op with
  | ins k v =>
    obtain ⟨r, s2, ptr, heq, hinv2, _⟩ := insert_spec s k v hinv
    refine ⟨s2, ?_, hinv2⟩
    show (Shard.insert s k v).map (fun p => p.2) = some s2
    rw [heq]
    rfl
  | lookup k =>
    obtain ⟨r, s2, heq, hinv2, _⟩ := get_spec s k hinv
    refine ⟨s2, ?_, hinv2⟩
    show (Shard.get s k).map (fun p => p.2) = some s2
    rw [heq]
    rfl

/-- Every sequence of public shard operations is total and preserves the
invariant. -/
theorem runOps_spec (ops : List CacheOp) :
    ∀ s : Shard, ShardInv s → ∃ s2, Shard.runOps s ops = some s2 ∧ ShardInv s2 := by
  induction ops with
  | nil =>
    intro s hinv
    exact ⟨s, rfl, hinv⟩
  | cons op rest ih =>
    intro s hinv
    obtain ⟨s1, heq1, hinv1⟩ := applyOp_spec s op hinv
    obtain ⟨s2, heq2, hinv2⟩ := ih s1 hinv1
    refine ⟨s2, ?_, hinv2⟩
    show (match Shard.applyOp s op with
          | none => none
          | some s3 => Shard.runOps s3 rest) = some s2
    rw [heq1]
    exact heq2

/-- The invariant of a reachable shard state. -/
theorem runOps_inv {capacity : Nat} {hash : Nat → Nat} {ops : List CacheOp} {s2 : Shard}
    (h : Shard.runOps (Shard.withCapacityAndHasher capacity hash) ops = some s2) :
    ShardInv s2 := by
  obtain ⟨s3, heq, hinv⟩ := runOps_spec ops _ (shardInv_init capacity hash)
  rw [h] at heq
  cases heq
  exact hinv

/-! ## The cache facade (src/src/cache.rs) -/

/-- The sharded cache: a hash builder and a vector of shards.  The Instant
used by the statistics facility is modelled separately (see the statistics
section below), since the shard-side counter accessors that Cache::stats
consumes are not part of the shard sources. -/
structure Cache where
  hash : Nat → Nat
  shards : List Shard

namespace Cache

/-- Cache::with_capacity_and_hasher.  The available parallelism is an
environment value of at least one, passed here as the parameter par
(Rust: available_parallelism().unwrap_or(1)). -/
def withCapacityAndHasher (capacity par : Nat) (hash : Nat → Nat) : Cache :=
  let availableParallelism := max par 1
  let numberOfShards := min (availableParallelism * 4) capacity
  if numberOfShards = 0 then ⟨hash, []⟩
  else
    let capacityPerShard := (capacity + numberOfShards - 1) / numberOfShards
    ⟨hash, List.replicate numberOfShards (Shard.withCapacityAndHasher capacityPerShard hash)⟩

/-- Cache::get_shard: the shard index for a hash value. -/
def shardIdx (c : Cache) (h : Nat) : Nat :=
  h % (max c.shards.length 2 - 1)

/-- Cache::insert.  The outer none models a panic inside the shard; the
Rust question-mark on a missing shard returns None without touching
anything. -/
def insert (c : Cache) (key value : Nat) : Option (Option Nat × Cache) :=
  let idx := c.shardIdx (c.hash key)
  match c.shards[idx]? with
  | none => some (none, c)
  | some shard =>
    match shard.insert key value with
    | none => none
    | some rs => some (rs.1, { c with shards := c.shards.set idx rs.2 })

/-- Cache::get. -/
def get (c : Cache) (key : Nat) : Option (Option Nat × Cache) :=
  let idx := c.shardIdx (c.hash key)
  match c.shards[idx]? with
  | none => some (none, c)
  | some shard =>
    match shard.get key with
    | none => none
    | some rs => some (rs.1, { c with shards := c.shards.set idx rs.2 })

def applyOp (c : Cache) : CacheOp → Option Cache
  | .ins k v => (c.insert k v).map (fun p => p.2)
  | .lookup k => (c.get k).map (fun p => p.2)

def runOps (c : Cache) : List CacheOp → Option Cache
  | [] => some c
  | op :: ops =>
    match c.applyOp op with
    | none => none
    | some c2 => Cache.runOps c2 ops

end Cache

/-- Invariant of the cache facade: every shard satisfies the shard
invariant. -/
def CacheInv (c : Cache) : Prop := ∀ sh ∈ c.shards, ShardInv sh

theorem shardIdx_lt (c : Cache) (h : Nat) (hlen : 1 ≤ c.shards.length) :
    c.shardIdx h < c.shards.length := by
  unfold Cache.shardIdx
  have hm : h % (max c.shards.length 2 - 1) < max c.shards.length 2 - 1 :=
    Nat.mod_lt _ (by omega)
  omega

theorem cacheInv_init (capacity par : Nat) (hash : Nat → Nat) :
    CacheInv (Cache.withCapacityAndHasher capacity par hash) := by
  intro sh hsh
  unfold Cache.withCapacityAndHasher at hsh
  by_cases h0 : min (max par 1 * 4) capacity = 0
  · rw [if_pos h0] at hsh
    cases hsh
  · rw [if_neg h0] at hsh
    have := List.eq_of_mem_replicate hsh
    rw [this]
    exact shardInv_init _ _

theorem cache_shards_init (capacity par : Nat) (hash : Nat → Nat) (hcap : 1 ≤ capacity) :
    1 ≤ (Cache.withCapacityAndHasher capacity par hash).shards.length ∧
      (Cache.withCapacityAndHasher capacity par hash).hash = hash := by
  unfold Cache.withCapacityAndHasher
  have h0 : ¬ min (max par 1 * 4) capacity = 0 := by
    have h1 : 1 ≤ max par 1 := by omega
    have h2 : 1 ≤ max par 1 * 4 := by omega
    omega
  rw [if_neg h0]
  constructor
  · show 1 ≤ (List.replicate (min (max par 1 * 4) capacity) _).length
    rw [List.length_replicate]
    omega
  · rfl

/-- Totality and preservation for Cache::insert. -/
theorem cache_insert_spec (c : Cache) (k v : Nat) (hinv : CacheInv c) :
    ∃ r c2, Cache.insert c k v = some (r, c2) ∧ CacheInv c2 ∧
      c2.shards.length = c.shards.length ∧ c2.hash = c.hash := by
  cases hsh : c.shards[c.shardIdx (c.hash k)]? with
  | none =>
    refine ⟨none, c, ?_, hinv, rfl, rfl⟩
    simp only [Cache.insert, hsh]
  | some sh =>
    have hmem : sh ∈ c.shards := List.getElem?_mem hsh
    obtain ⟨r, sh2, ptr, heq, hinv2, _⟩ := insert_spec sh k v (hinv sh hmem)
    refine ⟨r, { c with shards := c.shards.set (c.shardIdx (c.hash k)) sh2 }, ?_, ?_, ?_, rfl⟩
    · simp only [Cache.insert, hsh, heq]
    · intro sh3 hsh3
      rcases List.mem_or_eq_of_mem_set hsh3 with h1 | h2
      · exact hinv sh3 h1
      · rw [h2]
        exact hinv2
    · show (c.shards.set _ sh2).length = c.shards.length
      simp

/-- Totality and preservation for Cache::get. -/
theorem cache_get_spec (c : Cache) (k : Nat) (hinv : CacheInv c) :
    ∃ r c2, Cache.get c k = some (r, c2) ∧ CacheInv c2 ∧
      c2.shards.length = c.shards.length ∧ c2.hash = c.hash := by
  cases hsh : c.shards[c.shardIdx (c.hash k)]? with
  | none =>
    refine ⟨none, c, ?_, hinv, rfl, rfl⟩
    simp only [Cache.get, hsh]
  | some sh =>
    have hmem : sh ∈ c.shards := List.getElem?_mem hsh
    obtain ⟨r, sh2, heq, hinv2, _⟩ := get_spec sh k (hinv sh hmem)
    refine ⟨r, { c with shards := c.shards.set (c.shardIdx (c.hash k)) sh2 }, ?_, ?_, ?_, rfl⟩
    · simp only [Cache.get, hsh, heq]
    · intro sh3 hsh3
      rcases List.mem_or_eq_of_mem_set hsh3 with h1 | h2
      · exact hinv sh3 h1
      · rw [h2]
        exact hinv2
    · show (c.shards.set _ sh2).length = c.shards.length
      simp

theorem cache_runOps_spec (ops : List CacheOp) :
    ∀ c : Cache, CacheInv c → ∃ c2, Cache.runOps c ops = some c2 ∧ CacheInv c2 ∧
      c2.shards.length = c.shards.length ∧ c2.hash = c.hash := by
  induction ops with
  | nil =>
    intro c hinv
    exact ⟨c, rfl, hinv, rfl, rfl⟩
  | cons op rest ih =>
    intro c hinv
    have hstep : ∃ c1, Cache.applyOp c op = some c1 ∧ CacheInv c1 ∧
        c1.shards.length = c.shards.length ∧ c1.hash = c.hash := by
      cases op with
      | ins k v =>
        obtain ⟨r, c1, heq, h1, h2, h3⟩ := cache_insert_spec c k v hinv
        refine ⟨c1, ?_, h1, h2, h3⟩
        show (Cache.insert c k v).map (fun p => p.2) = some c1
        rw [heq]
        rfl
      | lookup k =>
        obtain ⟨r, c1, heq, h1, h2, h3⟩ := cache_get_spec c k hinv
        refine ⟨c1, ?_, h1, h2, h3⟩
        show (Cache.get c k).map (fun p => p.2) = some c1
        rw [heq]
        rfl
    obtain ⟨c1, heq1, hinv1, hlen1, hhash1⟩ := hstep
    obtain ⟨c2, heq2, hinv2, hlen2, hhash2⟩ := ih c1 hinv1
    refine ⟨c2, ?_, hinv2, by rw [hlen2, hlen1], by rw [hhash2, hhash1]⟩
    show (match Cache.applyOp c op with
          | none => none
          | some c3 => Cache.runOps c3 rest) = some c2
    rw [heq1]
    exact heq2

/-! ## Occupancy is bounded by len (pigeonhole over the window) -/

theorem occCountL_eq_filter_length (l : List (Option Entry)) :
    Shard.occCountL l =
      ((List.range l.length).filter (fun j => (l.getD j none).isSome)).length := by
  induction l with
  | nil => rfl
  | cons o t ih =>
    have hkey : ((List.range (o :: t).length).filter
        (fun j => (((o :: t).getD j none).isSome))).length =
        (if o.isSome then 1 else 0) +
          ((List.range t.length).filter (fun j => ((t.getD j none).isSome))).length := by
      rw [show (o :: t).length = t.length + 1 from rfl, List.range_succ_eq_map]
      rw [List.filter_cons]
      rw [List.filter_map]
      rw [List.filter_congr (show ∀ a ∈ List.range t.length,
        ((fun j => (((o :: t).getD j none).isSome)) ∘ Nat.succ) a =
          (fun j => ((t.getD j none).isSome)) a from fun a _ => rfl)]
      cases o with
      | none =>
        rw [show (((none :: t).getD 0 none).isSome : Bool) = false from rfl]
        simp only [Option.isSome_none, Bool.false_eq_true, if_false, List.length_map]
        omega
      | some e =>
        rw [show (((some e :: t).getD 0 none).isSome : Bool) = true from rfl]
        simp only [if_true, List.length_cons, List.length_map, Option.isSome_some]
        omega
    rw [hkey]
    cases o with
    | none =>
      show Shard.occCountL t = (if (none : Option Entry).isSome then 1 else 0) + _
      simp only [Option.isSome_none, Bool.false_eq_true, if_false]
      omega
    | some e =>
      show 1 + Shard.occCountL t = (if (some e).isSome then 1 else 0) + _
      simp only [Option.isSome_some, if_true]
      omega

theorem occCountL_le_len (rb : RingBuffer Entry) (hinv : RBInv rb) :
    Shard.occCountL rb.buffer ≤ rb.len := by
  obtain ⟨hhead, hlen, hwin⟩ := hinv
  rw [occCountL_eq_filter_length]
  set F := (List.range rb.buffer.length).filter
    (fun j => ((rb.buffer.getD j none).isSome)) with hF
  have hFmem : ∀ j ∈ F, j < rb.cap ∧ (rb.buffer.getD j none).isSome = true := by
    intro j hj
    rw [hF] at hj
    have h1 := List.mem_filter.mp hj
    exact ⟨List.mem_range.mp h1.1, by simpa using h1.2⟩
  have hnodup : F.Nodup := List.Nodup.filter _ (List.nodup_range _)
  have hinj : ∀ x ∈ F, ∀ y ∈ F, rdist rb.cap rb.head x = rdist rb.cap rb.head y → x = y := by
    intro x hx y hy hxy
    exact rdist_inj hhead (hFmem x hx).1 (hFmem y hy).1 hxy
  have hmapnodup : (F.map (rdist rb.cap rb.head)).Nodup := List.Nodup.map_on hinj hnodup
  have hsub : (F.map (rdist rb.cap rb.head)) ⊆ List.range rb.len := by
    intro d hd
    obtain ⟨j, hj, hdj⟩ := List.mem_map.mp hd
    rw [List.mem_range, ← hdj]
    exact hwin j (hFmem j hj).1 (hFmem j hj).2
  have := (List.subperm_of_subset hmapnodup hsub).length_le
  rw [List.length_map, List.length_range] at this
  exact this

/-! ## Statistics (src/src/cache/stats.rs and Cache::stats) -/

/-- The public Stats struct of src/src/cache/stats.rs (u64 and u128 counters
as Nat; the embedding never reaches the wrap-around range). -/
structure Stats where
  missCount : Nat
  hitCount : Nat
  evictionCount : Nat
  millisElapsed : Nat
deriving DecidableEq

/-- Per-shard hit, miss and eviction counters of src/src/cache/stats.rs. -/
structure Counters where
  hitCount : Nat
  missCount : Nat
  evictionCount : Nat
deriving DecidableEq

/-- Counters::default: all three counters start at zero. -/
def Counters.default : Counters := ⟨0, 0, 0⟩

/-- Counters::reset (src/src/cache/stats.rs): stores zero into all three
counters. -/
def Counters.reset (c : Counters) : Counters := { c with hitCount := 0, missCount := 0, evictionCount := 0 }

/-- Modelled from the spec: the counter state that Cache::stats reads.  The
shard sources of the repository do not contain the accessors hit_count,
miss_count, eviction_count and reset_counters that Cache::stats calls on
each shard, so per the spec each shard carries a Counters record that those
accessors read and reset.  The Instant in the metrics_last_accessed mutex is
modelled as a Nat timestamp in milliseconds; Instant::now() at a call site
enters as the parameter now, and elapsed time is truncated subtraction. -/
structure CacheCounterState where
  shardCounters : List Counters
  metricsLastAccessed : Nat

/-- The counter state of a freshly constructed cache: default counters for
every shard, the metrics clock set to the construction time. -/
def CacheCounterState.init (numberOfShards constructedAt : Nat) : CacheCounterState :=
  ⟨List.replicate numberOfShards Counters.default, constructedAt⟩

/-- Cache::stats (src/src/cache.rs): reads the milliseconds since the clock
was last accessed and resets the clock, then sums the three counters over
all shards, resetting the counters of each shard as it goes. -/
def cacheStats (st : CacheCounterState) (now : Nat) : Stats × CacheCounterState :=
  let millisElapsed := now - st.metricsLastAccessed
  let hits := (st.shardCounters.map (fun c => c.hitCount)).sum
  let misses := (st.shardCounters.map (fun c => c.missCount)).sum
  let evictions := (st.shardCounters.map (fun c => c.evictionCount)).sum
  (⟨misses, hits, evictions, millisElapsed⟩, ⟨st.shardCounters.map Counters.reset, now⟩)

/-- Any counter projection sums to zero over a list of reset counters. -/
theorem sum_map_reset_zero (f : Counters → Nat) (hf : ∀ c, f (Counters.reset c) = 0) :
    ∀ l : List Counters, ((l.map Counters.reset).map f).sum = 0 := by
  intro l
  induction l with
  | nil => rfl
  | cons c t ih =>
    rw [List.map_cons, List.map_cons, List.sum_cons, ih, hf c]

/-! ## Step equations for the pop_front loop -/

/-- One iteration of the pop_front loop on an occupied head slot: the slot
is taken, head advances, len decrements, and the value is returned. -/
theorem popFrontLoop_succ_some {α : Type} (fuel : Nat) (rb : RingBuffer α) (v : α)
    (h1 : rb.len ≠ 0) (hv : rb.buffer.getD rb.head none = some v) :
    RingBuffer.popFrontLoop (fuel + 1) rb =
      (some v, { head := rb.wrapAdd rb.head 1, len := rb.len - 1, buffer := rb.buffer.set rb.head none }) := by
  show (if rb.len = 0 then ((none : Option α), rb)
        else
          match rb.buffer.getD rb.head none with
          | some x =>
            (some x, { head := rb.wrapAdd rb.head 1, len := rb.len - 1, buffer := rb.buffer.set rb.head none })
          | none =>
            RingBuffer.popFrontLoop fuel { head := rb.wrapAdd rb.head 1, len := rb.len - 1, buffer := rb.buffer.set rb.head none }) =
      (some v, { head := rb.wrapAdd rb.head 1, len := rb.len - 1, buffer := rb.buffer.set rb.head none })
  rw [if_neg h1, hv]

/-- One iteration of the pop_front loop on an empty (tombstoned) head slot:
the loop advances past it and continues with one unit of fuel less. -/
theorem popFrontLoop_succ_none {α : Type} (fuel : Nat) (rb : RingBuffer α)
    (h1 : rb.len ≠ 0) (hv : rb.buffer.getD rb.head none = none) :
    RingBuffer.popFrontLoop (fuel + 1) rb =
      RingBuffer.popFrontLoop fuel { head := rb.wrapAdd rb.head 1, len := rb.len - 1, buffer := rb.buffer.set rb.head none } := by
  show (if rb.len = 0 then ((none : Option α), rb)
        else
          match rb.buffer.getD rb.head none with
          | some x =>
            (some x, { head := rb.wrapAdd rb.head 1, len := rb.len - 1, buffer := rb.buffer.set rb.head none })
          | none =>
            RingBuffer.popFrontLoop fuel { head := rb.wrapAdd rb.head 1, len := rb.len - 1, buffer := rb.buffer.set rb.head none }) =
      RingBuffer.popFrontLoop fuel { head := rb.wrapAdd rb.head 1, len := rb.len - 1, buffer := rb.buffer.set rb.head none }
  rw [if_neg h1, hv]

/-- The single-step wrap of head equals addition modulo the capacity. -/
theorem wrapAdd_one_mod {α : Type} (rb : RingBuffer α) (h : rb.head < rb.cap) :
    rb.wrapAdd rb.head 1 = (rb.head + 1) % rb.cap := by
  obtain ⟨hw1, hw2⟩ := RingBuffer.wrapAdd_one rb h
  rw [hw1]
  by_cases hc : rb.head + 1 = rb.cap
  · rw [if_pos hc, hc, Nat.mod_self]
  · rw [if_neg hc, Nat.mod_eq_of_lt (by omega)]

/-! ## One Cache::insert or Cache::get step through its shard -/

/-- A Cache::insert whose shard exists: the shard-level postconditions lifted
to the facade, with the updated shard reachable again at the same index. -/
theorem cache_insert_shard_step (c : Cache) (k v : Nat) (sh : Shard)
    (hg : c.shards[c.shardIdx (c.hash k)]? = some sh) (hinv : ShardInv sh) :
    ∃ r sh2 ptr c2, Cache.insert c k v = some (r, c2) ∧
      r = ((mapGet sh.entryPointers k).bind (fun p => (slotAt sh p).map Entry.value)) ∧
      ShardInv sh2 ∧
      mapGet sh2.entryPointers k = some ptr ∧
      slotAt sh2 ptr = some (Entry.new k v) ∧
      c2.shards[c2.shardIdx (c2.hash k)]? = some sh2 := by
  have hidx : c.shardIdx (c.hash k) < c.shards.length := by
    by_contra hcon
    rw [List.getElem?_eq_none (by omega)] at hg
    cases hg
  obtain ⟨r, sh2, ptr, hins, hinv2, hr, hmg, hslot, hiff, hcs, hcm⟩ := insert_spec sh k v hinv
  refine ⟨r, sh2, ptr, { c with shards := c.shards.set (c.shardIdx (c.hash k)) sh2 }, ?_, hr,
    hinv2, hmg, hslot, ?_⟩
  · simp only [Cache.insert, hg, hins]
  · have hidxeq :
        ({ c with shards := c.shards.set (c.shardIdx (c.hash k)) sh2 } : Cache).shardIdx
            (({ c with shards := c.shards.set (c.shardIdx (c.hash k)) sh2 } : Cache).hash k) =
          c.shardIdx (c.hash k) := by
      show c.hash k % (max (c.shards.set (c.shardIdx (c.hash k)) sh2).length 2 - 1) =
        c.hash k % (max c.shards.length 2 - 1)
      rw [List.length_set]
    rw [hidxeq]
    show (c.shards.set (c.shardIdx (c.hash k)) sh2)[c.shardIdx (c.hash k)]? = some sh2
    exact List.getElem?_set_self hidx

/-- A Cache::get whose shard exists: the returned value is the indexed value
of the key in that shard. -/
theorem cache_get_shard_step (c : Cache) (k : Nat) (sh : Shard)
    (hg : c.shards[c.shardIdx (c.hash k)]? = some sh) (hinv : ShardInv sh) :
    ∃ r c2, Cache.get c k = some (r, c2) ∧
      r = ((mapGet sh.entryPointers k).bind (fun p => (slotAt sh p).map Entry.value)) := by
  obtain ⟨r, sh2, hget, hinv2, hmapeq, hgh, hcs, hcm, hr⟩ := get_spec sh k hinv
  refine ⟨r, { c with shards := c.shards.set (c.shardIdx (c.hash k)) sh2 }, ?_, hr⟩
  simp only [Cache.get, hg, hget]

/-! ## Concrete shard states used by the witnesses -/

/-- The shard of capacity ten with the identity hasher after inserting key 1
with value 10: the key sits in the small queue at slot zero. -/
def exampleShard : Shard :=
  (Shard.runOps (Shard.withCapacityAndHasher 10 (fun n => n)) [CacheOp.ins 1 10]).getD
    (Shard.withCapacityAndHasher 10 (fun n => n))

/-- The shard of capacity ten with the identity hasher after inserting key 1,
then key 2 (which evicts key 1 from the full one-slot small queue into the
ghost set), then key 1 again (revived into the main queue). -/
def exampleShard3 : Shard :=
  (Shard.runOps (Shard.withCapacityAndHasher 10 (fun n => n))
      [CacheOp.ins 1 10, CacheOp.ins 2 20, CacheOp.ins 1 11]).getD
    (Shard.withCapacityAndHasher 10 (fun n => n))

/-! ## The claims -/

/-- Claim C1, counterexample: after insert 1, insert 2 (which retires key 1
from the full one-slot small queue into the ghost set) and insert 1 again
(which revives key 1 into the main queue), key 1 is present in the
entry-pointer index while ghost contains 1 still returns true: the ghost
set has no remove operation, so revival leaves the key in both structures. -/
theorem index_and_ghost_can_overlap :
    (Shard.runOps (Shard.withCapacityAndHasher 10 (fun n => n))
        [CacheOp.ins 1 10, CacheOp.ins 2 20, CacheOp.ins 1 11]).map
      (fun s => ((mapGet s.entryPointers 1).isSome && s.ghostQueue.contains 1)) =
      some true := by
  decide

/-- Claim C1 (amended): a key never belongs to both the index with a
small-queue pointer and the ghost set.  For every shard state reachable from
the empty shard, whenever the index maps a key to a SmallQueue pointer,
ghost contains on that key returns false.  The exclusion does not extend to
keys mapped to MainQueue pointers: a ghost key revived into the main queue
stays in the ghost set, as the counterexample shows. -/
theorem small_indexed_key_never_in_ghost (capacity : Nat) (hash : Nat → Nat)
    (ops : List CacheOp) (s : Shard)
    (h : Shard.runOps (Shard.withCapacityAndHasher capacity hash) ops = some s)
    (k : Nat) (p : EntryPointer) (hk : mapGet s.entryPointers k = some p)
    (hsmall : p.isSmall = true) : s.ghostQueue.contains k = false := by
  have hinv := runOps_inv h
  exact hinv.2.2.2.2.2.1 (k, p) (mapGet_mem hk) hsmall

theorem small_indexed_key_never_in_ghost_witness :
    exampleShard.ghostQueue.contains 1 = false :=
  small_indexed_key_never_in_ghost 10 (fun n => n) [CacheOp.ins 1 10] exampleShard (by rfl) 1
    (EntryPointer.smallQueue 0) (by rfl) rfl

/-- Claim C2: after every sequence of public shard operations, every index
entry points to an occupied slot holding an entry with the same key
(forward direction, for both pointer kinds); every occupied slot of the main
or small queue is referenced by the index entry of its key with the matching
pointer kind (converse direction); and no two keys share a pointer, so every
occupied slot is addressed by exactly one index entry. -/
theorem index_queue_cross_invariant (capacity : Nat) (hash : Nat → Nat)
    (ops : List CacheOp) (s : Shard)
    (h : Shard.runOps (Shard.withCapacityAndHasher capacity hash) ops = some s) :
    (∀ k p, mapGet s.entryPointers k = some p → ∃ e, slotAt s p = some e ∧ e.key = k) ∧
    (∀ i < s.mainQueue.cap, ∀ e ∈ s.mainQueue.get i,
        mapGet s.entryPointers e.key = some (.mainQueue i)) ∧
    (∀ i < s.smallQueue.cap, ∀ e ∈ s.smallQueue.get i,
        mapGet s.entryPointers e.key = some (.smallQueue i)) ∧
    (∀ k1 k2 p, mapGet s.entryPointers k1 = some p →
        mapGet s.entryPointers k2 = some p → k1 = k2) := by
  obtain ⟨hrbS, hrbM, hptr, hrefM, hrefS, hgh, hcntM, hcntS⟩ := runOps_inv h
  have hfwd : ∀ k p, mapGet s.entryPointers k = some p →
      ∃ e, slotAt s p = some e ∧ e.key = k := by
    intro k p hk
    have hthis := hptr (k, p) (mapGet_mem hk) (by simp)
    cases hs : slotAt s p with
    | none =>
      rw [show slotAt s (k, p).2 = slotAt s p from rfl, hs] at hthis
      cases hthis
    | some e =>
      rw [show slotAt s (k, p).2 = slotAt s p from rfl, hs] at hthis
      exact ⟨e, rfl, Option.some.inj hthis⟩
  refine ⟨hfwd, hrefM, hrefS, ?_⟩
  intro k1 k2 p h1 h2
  obtain ⟨e1, hs1, hk1⟩ := hfwd k1 p h1
  obtain ⟨e2, hs2, hk2⟩ := hfwd k2 p h2
  rw [hs1] at hs2
  cases Option.some.inj hs2
  rw [← hk1, ← hk2]

theorem index_queue_cross_invariant_witness :
    ∃ e, slotAt exampleShard (EntryPointer.smallQueue 0) = some e ∧ e.key = 1 :=
  (index_queue_cross_invariant 10 (fun n => n) [CacheOp.ins 1 10] exampleShard (by rfl)).1
    1 (EntryPointer.smallQueue 0) (by rfl)

/-- Claim C3: every public shard operation is total on reachable states: a
run of any operation sequence from the empty shard never returns none, so no
internal expect (pointer to an empty slot in get, failed push after an
eviction in insert, popped entry missing from the index) ever fires. -/
theorem shard_ops_total (capacity : Nat) (hash : Nat → Nat) (ops : List CacheOp) :
    (Shard.runOps (Shard.withCapacityAndHasher capacity hash) ops).isSome = true := by
  obtain ⟨s2, heq, _⟩ := runOps_spec ops _ (shardInv_init capacity hash)
  rw [heq]
  rfl

/-- Claim C4: on every reachable cache built with capacity at least one, for
every key and pair of values, inserting the key with the first value, then
inserting it again with the second value returns some of the first value,
and a subsequent get of the key returns some of the second value. -/
theorem insert_overwrites_and_returns_prior (capacity par : Nat) (hash : Nat → Nat)
    (ops : List CacheOp) (c : Cache) (hcap : 1 ≤ capacity)
    (h : Cache.runOps (Cache.withCapacityAndHasher capacity par hash) ops = some c)
    (k v1 v2 : Nat) :
    ∃ r1 c1 c2 c3, Cache.insert c k v1 = some (r1, c1) ∧
      Cache.insert c1 k v2 = some (some v1, c2) ∧
      Cache.get c2 k = some (some v2, c3) := by
  obtain ⟨c0, heq0, hinvc, hlenc, _⟩ :=
    cache_runOps_spec ops _ (cacheInv_init capacity par hash)
  rw [h] at heq0
  cases heq0
  have hlen : 1 ≤ c.shards.length := by
    rw [hlenc]
    exact (cache_shards_init capacity par hash hcap).1
  have hidx : c.shardIdx (c.hash k) < c.shards.length := shardIdx_lt c (c.hash k) hlen
  obtain ⟨sh, hg1⟩ : ∃ sh0, c.shards[c.shardIdx (c.hash k)]? = some sh0 :=
    ⟨_, List.getElem?_eq_getElem hidx⟩
  have hshinv : ShardInv sh := hinvc sh (List.getElem?_mem hg1)
  obtain ⟨r1, sh1, ptr1, c1, he1, hr1, hinv1, hmg1, hslot1, hg2⟩ :=
    cache_insert_shard_step c k v1 sh hg1 hshinv
  obtain ⟨r2, sh2, ptr2, c2, he2, hr2, hinv2, hmg2, hslot2, hg3⟩ :=
    cache_insert_shard_step c1 k v2 sh1 hg2 hinv1
  have hr2v : r2 = some v1 := by
    rw [hr2, hmg1]
    show (slotAt sh1 ptr1).map Entry.value = some v1
    rw [hslot1]
    rfl
  obtain ⟨r3, c3, he3, hr3⟩ := cache_get_shard_step c2 k sh2 hg3 hinv2
  have hr3v : r3 = some v2 := by
    rw [hr3, hmg2]
    show (slotAt sh2 ptr2).map Entry.value = some v2
    rw [hslot2]
    rfl
  refine ⟨r1, c1, c2, c3, he1, ?_, ?_⟩
  · rw [← hr2v]
    exact he2
  · rw [← hr3v]
    exact he3

theorem insert_overwrites_and_returns_prior_witness :
    ∃ r1 c1 c2 c3,
      Cache.insert (Cache.withCapacityAndHasher 4 1 (fun n => n)) 1 10 = some (r1, c1) ∧
      Cache.insert c1 1 11 = some (some 10, c2) ∧
      Cache.get c2 1 = some (some 11, c3) :=
  insert_overwrites_and_returns_prior 4 1 (fun n => n) []
    (Cache.withCapacityAndHasher 4 1 (fun n => n)) (by decide) rfl 1 10 11

/-- Claim C5: a shard insert on a reachable state admits a fresh entry with
access count zero (Entry.new) for the key, reachable from the updated index,
and the entry goes to the main queue exactly when the ghost set contained
the key at the start of the insert, to the small queue otherwise; in
particular a key retired to the (still surviving) ghost set is re-admitted
directly to the main queue. -/
theorem insert_admission_by_ghost (capacity : Nat) (hash : Nat → Nat)
    (ops : List CacheOp) (s : Shard)
    (h : Shard.runOps (Shard.withCapacityAndHasher capacity hash) ops = some s)
    (key value : Nat) :
    ∃ r s2 ptr, Shard.insert s key value = some (r, s2) ∧
      mapGet s2.entryPointers key = some ptr ∧
      slotAt s2 ptr = some (Entry.new key value) ∧
      (ptr.isSmall = false ↔ s.ghostQueue.contains key = true) := by
  obtain ⟨r, s2, ptr, h1, _, _, h4, h5, h6, _, _⟩ := insert_spec s key value (runOps_inv h)
  exact ⟨r, s2, ptr, h1, h4, h5, h6⟩

theorem insert_admission_by_ghost_witness :
    ∃ r s2 ptr,
      Shard.insert (Shard.withCapacityAndHasher 10 (fun n => n)) 1 10 = some (r, s2) ∧
      mapGet s2.entryPointers 1 = some ptr ∧
      slotAt s2 ptr = some (Entry.new 1 10) ∧
      (ptr.isSmall = false ↔
        (Shard.withCapacityAndHasher 10 (fun n => n)).ghostQueue.contains 1 = true) :=
  insert_admission_by_ghost 10 (fun n => n) [] (Shard.withCapacityAndHasher 10 (fun n => n))
    rfl 1 10

/-- Claim C6: on a reachable shard state, evict small queue pops the front
of the small queue; if nothing remains only the exhausted queue is written
back; if the popped entry has access count strictly greater than one it is
promoted into the main queue with its count reset to zero and its index
pointer updated to the new main slot, leaving the ghost set unchanged; and
with count zero or one it is retired: removed from the index and inserted
into the ghost set. -/
theorem evict_small_promotes_or_retires (capacity : Nat) (hash : Nat → Nat)
    (ops : List CacheOp) (s : Shard)
    (h : Shard.runOps (Shard.withCapacityAndHasher capacity hash) ops = some s) :
    ∃ s2, Shard.evictSmallQueue s = some s2 ∧
      (∀ sq, s.smallQueue.popFront = (none, sq) → s2 = { s with smallQueue := sq }) ∧
      (∀ e sq, s.smallQueue.popFront = (some e, sq) → 1 < e.getNumAccessed →
        ∃ p, p < s2.mainQueue.cap ∧
          mapGet s2.entryPointers e.key = some (.mainQueue p) ∧
          s2.mainQueue.get p = some (e.setNumAccessed 0) ∧
          s2.ghostQueue = s.ghostQueue ∧ s2.smallQueue = sq) ∧
      (∀ e sq, s.smallQueue.popFront = (some e, sq) → e.getNumAccessed ≤ 1 →
        s2 = { s with smallQueue := sq, entryPointers := mapRemove s.entryPointers e.key, ghostQueue := s.ghostQueue.insert e.key }) := by
  obtain ⟨s2, heq, hinv2, hcs, hcm, hlen, hlt, hbad, hghf, hmatch⟩ :=
    evictSmallQueue_spec s [] (runOps_inv h)
  refine ⟨s2, heq, ?_, ?_, ?_⟩
  · intro sq hpop
    rw [hpop] at hmatch
    exact hmatch
  · intro e sq hpop hcnt
    rw [hpop] at hmatch
    have hm2 : if 1 < e.getNumAccessed then
        ∃ p, p < s2.mainQueue.cap ∧
          mapGet s2.entryPointers e.key = some (.mainQueue p) ∧
          s2.mainQueue.get p = some (e.setNumAccessed 0) ∧
          s2.ghostQueue = s.ghostQueue ∧ s2.smallQueue = sq
      else
        s2 = { s with smallQueue := sq, entryPointers := mapRemove s.entryPointers e.key, ghostQueue := s.ghostQueue.insert e.key } := hmatch
    rw [if_pos hcnt] at hm2
    exact hm2
  · intro e sq hpop hcnt
    rw [hpop] at hmatch
    have hm2 : if 1 < e.getNumAccessed then
        ∃ p, p < s2.mainQueue.cap ∧
          mapGet s2.entryPointers e.key = some (.mainQueue p) ∧
          s2.mainQueue.get p = some (e.setNumAccessed 0) ∧
          s2.ghostQueue = s.ghostQueue ∧ s2.smallQueue = sq
      else
        s2 = { s with smallQueue := sq, entryPointers := mapRemove s.entryPointers e.key, ghostQueue := s.ghostQueue.insert e.key } := hmatch
    rw [if_neg (by omega : ¬ 1 < e.getNumAccessed)] at hm2
    exact hm2

theorem evict_small_promotes_or_retires_witness :
    ∃ s2, Shard.evictSmallQueue exampleShard = some s2 ∧
      s2.ghostQueue.contains 1 = true := by
  obtain ⟨s2, heq, hnone, hprom, hret⟩ :=
    evict_small_promotes_or_retires 10 (fun n => n) [CacheOp.ins 1 10] exampleShard (by rfl)
  refine ⟨s2, heq, ?_⟩
  rw [hret (Entry.new 1 10) ⟨0, 0, [none]⟩ (by rfl) (by decide)]
  decide

/-- Claim C7: on every reachable shard state with a nonempty main queue, the
evict main loop (run with the fuel bound used by evict main queue)
terminates with an iteration count of at most four times the main queue
length: each reinsertion strictly decreases the access-count sum, counts are
bounded by three, and occupancy is bounded by the length. -/
theorem evict_main_terminates_within_bound (capacity : Nat) (hash : Nat → Nat)
    (ops : List CacheOp) (s : Shard)
    (h : Shard.runOps (Shard.withCapacityAndHasher capacity hash) ops = some s)
    (hlen : 1 ≤ s.mainQueue.len) :
    ∃ s2 n, Shard.evictMainLoop (Shard.mainFuel s) s = some (s2, n) ∧
      Shard.evictMainQueue s = some s2 ∧ n ≤ 4 * s.mainQueue.len := by
  have hinv := runOps_inv h
  obtain ⟨s2, n, heq, hinv2, _, _, _, _, _, hn⟩ :=
    evictMainLoop_spec (Shard.mainFuel s) s [] hinv (by unfold Shard.mainFuel; omega)
  refine ⟨s2, n, heq, ?_, ?_⟩
  · unfold Shard.evictMainQueue
    rw [heq]
    rfl
  · have hocc := occCountL_le_len s.mainQueue hinv.2.1
    have hcnt3 : ∀ o ∈ s.mainQueue.buffer, ∀ e ∈ o, e.numAccessed ≤ 3 :=
      fun o ho e he => (hinv.2.2.2.2.2.2.1 o ho e he).1
    have hsum := Shard.countSumL_le_three_occCountL hcnt3
    omega

theorem evict_main_terminates_within_bound_witness :
    ∃ s2 n, Shard.evictMainLoop (Shard.mainFuel exampleShard3) exampleShard3 = some (s2, n) ∧
      Shard.evictMainQueue exampleShard3 = some s2 ∧ n ≤ 4 * exampleShard3.mainQueue.len :=
  evict_main_terminates_within_bound 10 (fun n => n)
    [CacheOp.ins 1 10, CacheOp.ins 2 20, CacheOp.ins 1 11] exampleShard3 (by rfl) (by decide)

/-- Claim C8: pop front repeatedly takes the slot at head, advances head by
one modulo the capacity and decrements len: with len zero it returns none
and leaves the buffer untouched; on an occupied head slot it clears the slot
and returns its value; on a tombstoned (empty) head slot it skips past it,
the buffer unchanged, and continues; and remove clears a slot, returning its
previous content, without changing head or len, preserving the buffer
invariant so a subsequent pop front returns the next occupied element. -/
theorem pop_front_skips_holes {α : Type} (rb : RingBuffer α) (hinv : RBInv rb) :
    (rb.len = 0 → RingBuffer.popFront rb = (none, rb)) ∧
    (∀ v, 1 ≤ rb.len → rb.buffer.getD rb.head none = some v →
      RingBuffer.popFront rb =
        (some v, { head := (rb.head + 1) % rb.cap, len := rb.len - 1, buffer := rb.buffer.set rb.head none })) ∧
    (1 ≤ rb.len → rb.buffer.getD rb.head none = none →
      RingBuffer.popFront rb =
        RingBuffer.popFront { head := (rb.head + 1) % rb.cap, len := rb.len - 1, buffer := rb.buffer }) ∧
    (∀ i, (rb.remove i).1 = rb.buffer.getD i none ∧
      (rb.remove i).2.buffer = rb.buffer.set i none ∧
      (rb.remove i).2.head = rb.head ∧ (rb.remove i).2.len = rb.len ∧
      RBInv (rb.remove i).2) := by
  obtain ⟨hhead, hle, hwin⟩ := hinv
  have hmw : rb.wrapAdd rb.head 1 = (rb.head + 1) % rb.cap := wrapAdd_one_mod rb hhead
  refine ⟨?_, ?_, ?_, ?_⟩
  · intro h0
    show RingBuffer.popFrontLoop rb.len rb = (none, rb)
    rw [h0]
    rfl
  · intro v h1 hv
    obtain ⟨m, hm⟩ : ∃ m, rb.len = m + 1 := ⟨rb.len - 1, by omega⟩
    show RingBuffer.popFrontLoop rb.len rb =
      (some v, { head := (rb.head + 1) % rb.cap, len := rb.len - 1, buffer := rb.buffer.set rb.head none })
    rw [hm, popFrontLoop_succ_some m rb v (by omega) hv, hmw, hm]
  · intro h1 hv
    obtain ⟨m, hm⟩ : ∃ m, rb.len = m + 1 := ⟨rb.len - 1, by omega⟩
    show RingBuffer.popFrontLoop rb.len rb =
      RingBuffer.popFront { head := (rb.head + 1) % rb.cap, len := rb.len - 1, buffer := rb.buffer }
    rw [hm, popFrontLoop_succ_none m rb (by omega) hv, hmw,
      set_of_getD_none rb.buffer rb.head hv, hm]
    rfl
  · intro i
    obtain ⟨h1, h2, h3, h4, _, h6⟩ := RingBuffer.remove_spec rb i ⟨hhead, hle, hwin⟩
    exact ⟨h1, h2, h3, h4, h6⟩

theorem pop_front_skips_holes_witness :
    RingBuffer.popFront (⟨0, 3, [none, some 5, none]⟩ : RingBuffer Nat) =
      RingBuffer.popFront (⟨1, 2, [none, some 5, none]⟩ : RingBuffer Nat) :=
  (pop_front_skips_holes (⟨0, 3, [none, some 5, none]⟩ : RingBuffer Nat)
      (by unfold RBInv; decide)).2.2.1 (by decide) (by decide)

/-- Claim C9: a stats call sums the hit, miss and eviction counters over the
shards and resets them, so a second call made immediately after (no
intervening operations) reports all three as zero; and the first call on the
counter state of a fresh cache reports the milliseconds elapsed since
construction. -/
theorem stats_resets_counters_and_reports_elapsed :
    (∀ (st : CacheCounterState) (now now2 : Nat),
      (cacheStats (cacheStats st now).2 now2).1.hitCount = 0 ∧
      (cacheStats (cacheStats st now).2 now2).1.missCount = 0 ∧
      (cacheStats (cacheStats st now).2 now2).1.evictionCount = 0) ∧
    (∀ (numberOfShards constructedAt now : Nat),
      (cacheStats (CacheCounterState.init numberOfShards constructedAt) now).1.millisElapsed =
        now - constructedAt) := by
  constructor
  · intro st now now2
    refine ⟨?_, ?_, ?_⟩
    · exact sum_map_reset_zero (fun c => c.hitCount) (fun c => rfl) st.shardCounters
    · exact sum_map_reset_zero (fun c => c.missCount) (fun c => rfl) st.shardCounters
    · exact sum_map_reset_zero (fun c => c.evictionCount) (fun c => rfl) st.shardCounters
  · intro numberOfShards constructedAt now
    rfl

/-- Claim C10: increment num accessed always sets the counter to the current
value plus one (below the u8 ceiling), whether the observed argument is
current or stale; a stale observation below three can push the counter past
the S3-FIFO ceiling of three, as the instance with counter three and
observation two shows; the zero-to-three bound survives only because update
access count re-reads the counter and guards with the less-than-three check
before calling increment. -/
theorem increment_num_accessed_cas :
    (∀ (e : Entry) (observed : Nat), e.numAccessed < 255 →
        (e.incrementNumAccessed observed).numAccessed = e.numAccessed + 1) ∧
    ((Entry.incrementNumAccessed ⟨7, 7, 3⟩ 2).numAccessed = 4) ∧
    (∀ e : Entry, 3 ≤ e.getNumAccessed → Shard.updateAccessCount e = e) ∧
    (∀ e : Entry, e.getNumAccessed < 3 →
        (Shard.updateAccessCount e).numAccessed = e.numAccessed + 1 ∧
        (Shard.updateAccessCount e).numAccessed ≤ 3) := by
  refine ⟨?_, by decide, ?_, ?_⟩
  · intro e observed ho
    unfold Entry.incrementNumAccessed
    by_cases hc : e.numAccessed = observed
    · rw [if_pos hc]
      show (observed + 1) % 256 = e.numAccessed + 1
      rw [← hc]
      exact Nat.mod_eq_of_lt (by omega)
    · rw [if_neg hc]
      show (e.numAccessed + 1) % 256 = e.numAccessed + 1
      exact Nat.mod_eq_of_lt (by omega)
  · intro e h3
    unfold Shard.updateAccessCount
    rw [if_pos (show e.getNumAccessed ≥ 3 from h3)]
  · intro e hlt
    have hA : e.numAccessed < 3 := hlt
    unfold Shard.updateAccessCount
    rw [if_neg (by omega : ¬ e.getNumAccessed ≥ 3)]
    unfold Entry.incrementNumAccessed
    rw [if_pos (show e.numAccessed = e.getNumAccessed from rfl)]
    have hmod : (e.getNumAccessed + 1) % 256 = e.numAccessed + 1 := by
      show (e.numAccessed + 1) % 256 = e.numAccessed + 1
      exact Nat.mod_eq_of_lt (by omega)
    refine ⟨?_, ?_⟩
    · show (e.getNumAccessed + 1) % 256 = e.numAccessed + 1
      exact hmod
    · show (e.getNumAccessed + 1) % 256 ≤ 3
      omega

theorem increment_num_accessed_cas_witness :
    (Entry.incrementNumAccessed ⟨1, 2, 0⟩ 5).numAccessed = (⟨1, 2, 0⟩ : Entry).numAccessed + 1 :=
  increment_num_accessed_cas.1 ⟨1, 2, 0⟩ 5 (by decide)

end PlainCache
